import Mathlib

/-!
Verification development for the `md-scrape` crawler (`src/md_scrape.py`).

The Python source is shallowly embedded: pure helpers (`sanitize_filename`,
`url_to_filename`, `rewrite_local_links`) become Lean functions over `String`
(Python strings are sequences of characters, so character-level `List Char`
operations model slicing and scanning faithfully); the stateful crawl loop of
`scrape_crawl` becomes an explicit step function over a `Frontier` record plus
an event trace; fallible operations (fetching, file writes, state loading)
return `Option`/sum types.  External library collaborators (`urllib.parse`,
`os.path`, `json`, playwright fetching, `markdownify` rendering) are modelled
at the level of the behaviour the crawler relies on, on the input forms the
crawler feeds them.
-/

/-! ## Character-list string primitives

Python string scanning (`in`, `startswith`, slicing, `split`, `strip`) is
modelled on `List Char`. -/

/-- `isPre p l` holds when `p` is a prefix of `l` (models `str.startswith`). -/
def isPre : List Char → List Char → Bool
  | [], _ => true
  | _ :: _, [] => false
  | a :: as, b :: bs => a == b && isPre as bs

/-- `hasSub sub l`: `sub` occurs contiguously in `l` (models Python `sub in s`). -/
def hasSub (sub : List Char) : List Char → Bool
  | [] => isPre sub []
  | c :: t => isPre sub (c :: t) || hasSub sub t

/-- Python `sub in s` on strings. -/
def strContains (s sub : String) : Bool := hasSub sub.data s.data

/-- Python `s.startswith(p)`. -/
def strStarts (s p : String) : Bool := isPre p.data s.data

/-- Python `s.endswith(p)`. -/
def strEnds (s p : String) : Bool := isPre p.data.reverse s.data.reverse

/-- Split `l` at the first occurrence of `sub`, returning the part before and
the part after; `none` when `sub` does not occur.  Models
`s.split(sub, 1)` / `s.partition(sub)` as used for scheme detection. -/
def splitSub (sub : List Char) : List Char → Option (List Char × List Char)
  | [] => if sub.isEmpty then some ([], []) else none
  | c :: t =>
    if isPre sub (c :: t) then some ([], (c :: t).drop sub.length)
    else match splitSub sub t with
      | some (a, b) => some (c :: a, b)
      | none => none

/-- Split a character list on a separator character; the result is always
nonempty, and empty runs yield empty segments (models Python `s.split(sep)`
for a one-character separator). -/
def splitCharL (sep : Char) : List Char → List (List Char)
  | [] => [[]]
  | c :: t =>
    if c = sep then [] :: splitCharL sep t
    else match splitCharL sep t with
      | [] => [[c]]
      | h :: r => (c :: h) :: r

/-- String-level wrapper of `splitCharL`. -/
def splitCharS (sep : Char) (s : String) : List String :=
  (splitCharL sep s.data).map String.mk

/-- Drop trailing `/` characters (Python `s.rstrip("/")`). -/
def rstripSlashL (l : List Char) : List Char :=
  (l.reverse.dropWhile (fun c => c = '/')).reverse

/-- Drop leading and trailing `/` characters (Python `s.strip("/")`). -/
def stripSlashL (l : List Char) : List Char :=
  rstripSlashL (l.dropWhile (fun c => c = '/'))

/-- ASCII whitespace recognised by Python `str.strip()` (the URLs handled
here are ASCII). -/
def isPySpace (c : Char) : Bool :=
  c = ' ' || c = '\t' || c = '\n' || c = '\r' || c = '\x0b' || c = '\x0c'

/-- Python `str.strip()` on a character list. -/
def trimL (l : List Char) : List Char :=
  ((l.dropWhile isPySpace).reverse.dropWhile isPySpace).reverse

/-- Python `str.strip()`. -/
def pyStrip (s : String) : String := String.mk (trimL s.data)

/-! ## Model of `urllib.parse` (external library)

`urlparse` and `urljoin` are modelled for the URL shapes the crawler feeds
them: absolute `scheme://netloc/path[?query][#fragment]` URLs as bases, and
hrefs that are absolute, scheme-relative (`//h/p`), host-relative (`/p`) or
path-relative (`p`).  Relative resolution merges with the base directory
without dot-segment normalisation (the crawler's claims never depend on it). -/

structure ParsedUrl where
  scheme : String
  netloc : String
  path : String
deriving DecidableEq, Repr

/-- Model of `urllib.parse.urlparse`, restricted to the components the
crawler reads (`scheme`, `netloc`, `path`); query and fragment are dropped. -/
def urlparse (url : String) : ParsedUrl :=
  match splitSub "://".data url.data with
  | some (sch, rest) =>
    let netloc := rest.takeWhile (fun c => !(c == '/' || c == '?' || c == '#'))
    let after := rest.drop netloc.length
    let path := after.takeWhile (fun c => !(c == '?' || c == '#'))
    ⟨String.mk sch, String.mk netloc, String.mk path⟩
  | none =>
    ⟨"", "", String.mk (url.data.takeWhile (fun c => !(c == '?' || c == '#')))⟩

/-- Characters of the base path up to and including its last `/`; `/` when the
path has no slash (the implicit root of a `scheme://netloc` URL). -/
def dirSlice (l : List Char) : List Char :=
  let d := (l.reverse.dropWhile (fun c => c ≠ '/')).reverse
  if d = [] then ['/'] else d

/-- Model of `urllib.parse.urljoin` on the href forms the crawler meets. -/
def urljoin (base href : String) : String :=
  if strContains href "://" then href
  else if strStarts href "//" then (urlparse base).scheme ++ ":" ++ href
  else
    let b := urlparse base
    if strStarts href "/" then b.scheme ++ "://" ++ b.netloc ++ href
    else if href = "" then b.scheme ++ "://" ++ b.netloc ++ b.path
    else b.scheme ++ "://" ++ b.netloc ++ String.mk (dirSlice b.path.data) ++ href

/-! ## Model of `os.path` (external library, POSIX flavour) -/

/-- Model of `posixpath.dirname`. -/
def dirname (p : String) : String :=
  let head := (p.data.reverse.dropWhile (fun c => c ≠ '/')).reverse
  if head.all (fun c => c = '/') then String.mk head
  else String.mk ((head.reverse.dropWhile (fun c => c = '/')).reverse)

/-- Model of two-argument `posixpath.join`. -/
def join2 (a b : String) : String :=
  if strStarts b "/" then b
  else if a = "" || strEnds a "/" then a ++ b
  else a ++ "/" ++ b

/-- Model of variadic `os.path.join(base, *parts)`. -/
def joinPath (base : String) (parts : List String) : String :=
  parts.foldl join2 base

/-- Nonempty `/`-separated segments of a path, as used by
`posixpath.relpath` (`[x for x in p.split(sep) if x]`). -/
def segsOf (p : String) : List String :=
  (splitCharS '/' p).filter (fun s => s ≠ "")

/-- Drop the common leading segments of two segment lists, returning both
remainders (models the `commonprefix` step of `posixpath.relpath`). -/
def dropCommon : List String → List String → List String × List String
  | [], bs => ([], bs)
  | a :: as, [] => (a :: as, [])
  | a :: as, b :: bs =>
    if a = b then dropCommon as bs else (a :: as, b :: bs)

/-- Resolution of a relative segment list against a base directory's segment
list: `..` pops a directory, `.` is skipped, anything else descends.  Used to
state that a rewritten relative href denotes the intended target file. -/
def resolveSegs : List String → List String → List String
  | base, [] => base
  | base, s :: t =>
    if s = ".." then resolveSegs base.dropLast t
    else if s = "." then resolveSegs base t
    else resolveSegs (base ++ [s]) t

/-- `posixpath.join` over the nonempty, slash-free relative segments produced
by `relpath` (on such segments the variadic join inserts one `/` between
consecutive parts). -/
def joinSegs : List String → String
  | [] => ""
  | [s] => s
  | s :: t => s ++ "/" ++ joinSegs t

/-- Model of `posixpath.relpath path start` on already-normalised inputs;
`none` models the `ValueError` raised on an empty path. -/
def relpath (path start : String) : Option String :=
  if path = "" then none
  else
    let (pT, sT) := dropCommon (segsOf path) (segsOf start)
    let parts := sT.map (fun _ => "..") ++ pT
    some (if parts = [] then "." else joinSegs parts)

/-! ## `sanitize_filename` and `url_to_filename` (from the source) -/

/-- Characters replaced by `re.sub(r'[\\*?:"<>|]', '_', name)`. -/
def illegalChar (c : Char) : Bool :=
  c = '\\' || c = '*' || c = '?' || c = ':' || c = '"' || c = '<' || c = '>' || c = '|'

/-- `sanitize_filename` from the source: replace filename-illegal characters
with `_`. -/
def sanitize_filename (name : String) : String :=
  String.mk (name.data.map (fun c => if illegalChar c then '_' else c))

/-- `url_to_filename` from the source: convert a doc URL into a local `.md`
file path based on `root_dir`. -/
def url_to_filename (url root_dir output_dir : String) : String :=
  let parsed := urlparse url
  let url_clean := String.mk (rstripSlashL (parsed.netloc ++ parsed.path).data)
  let root_clean :=
    if strContains root_dir "://" then
      let r := urlparse root_dir
      String.mk (rstripSlashL (r.netloc ++ r.path).data)
    else String.mk (rstripSlashL root_dir.data)
  let rel :=
    if strStarts url_clean root_clean then
      String.mk (url_clean.data.drop root_clean.data.length)
    else url_clean
  let relStripped := String.mk (stripSlashL rel.data)
  let relFinal := if relStripped = "" then "index" else relStripped
  let parts := (splitCharS '/' relFinal).map sanitize_filename
  let filename := (parts.getLastD "") ++ ".md"
  let subdirs := parts.dropLast
  joinPath output_dir (subdirs ++ [filename])

example :
    url_to_filename "https://docs.x.com/en/guides/concepts/page"
      "docs.x.com/en/guides" "/out" = "/out/concepts/page.md" := by decide

example :
    url_to_filename "https://example.com/foo/bar" "example.com" "out"
      = "out/foo/bar.md" := by decide

example :
    url_to_filename "https://other.com/foo" "example.com" "out"
      = "out/other.com/foo.md" := by decide

example :
    url_to_filename "https://docs.crewai.com/en/guides/foo"
      "https://docs.crewai.com/en/guides" "out" = "out/foo.md" := by decide

example :
    url_to_filename "https://docs.crewai.com/en/guides/concepts/x/"
      "docs.crewai.com/en/guides" "/home/docs" = "/home/docs/concepts/x.md" := by
  decide

/-! ## Model of `json.dump` / `json.load` (external library)

The crawler serialises `url_to_local` (a string-to-string dict) with
`json.dump` and reads it back with `json.load`.  The library contract the
crawler relies on is that `load` inverts `dump` on such dicts; it is modelled
by an explicit encoder (quoted, escaped key/value per line) and a decoder
that inverts it. -/

/-- Escape one character for the serialised mapping. -/
def escChar (c : Char) : List Char :=
  if c = '"' ∨ c = '\\' then ['\\', c]
  else if c = '\n' then ['\\', 'n']
  else if c = '\t' then ['\\', 't']
  else if c = '\r' then ['\\', 'r']
  else [c]

/-- Escape a whole string. -/
def escStr (l : List Char) : List Char :=
  l.foldr (fun c acc => escChar c ++ acc) []

/-- Undo `escChar`'s second character. -/
def unescChar (c : Char) : Char :=
  if c = 'n' then '\n' else if c = 't' then '\t' else if c = 'r' then '\r' else c

/-- Parse a quoted string body (the opening quote already consumed); returns
the decoded content and the remainder after the closing quote. -/
def parseQuoted : List Char → Option (List Char × List Char)
  | [] => none
  | c :: t =>
    if c = '\\' then
      match t with
      | [] => none
      | c2 :: t2 =>
        match parseQuoted t2 with
        | some (s, r) => some (unescChar c2 :: s, r)
        | none => none
    else if c = '"' then some ([], t)
    else
      match parseQuoted t with
      | some (s, r) => some (c :: s, r)
      | none => none

/-- Serialise one key/value line: `"key":"value"`. -/
def lineOfPair (kv : List Char × List Char) : List Char :=
  '"' :: (escStr kv.1 ++ ('"' :: ':' :: '"' :: (escStr kv.2 ++ ['"'])))

/-- Serialise a string-to-string association list, one pair per line. -/
def jsonDumpPairsL (ps : List (List Char × List Char)) : List Char :=
  ps.foldr (fun kv acc => lineOfPair kv ++ '\n' :: acc) []

/-- Parse one serialised key/value line. -/
def parseLine (l : List Char) : Option (List Char × List Char) :=
  match l with
  | '"' :: t =>
    match parseQuoted t with
    | some (k, ':' :: '"' :: r2) =>
      match parseQuoted r2 with
      | some (v, []) => some (k, v)
      | _ => none
    | _ => none
  | _ => none

/-- `Option`-valued map over a list, failing when any element fails. -/
def mapOpt (f : α → Option β) : List α → Option (List β)
  | [] => some []
  | a :: t =>
    match f a with
    | none => none
    | some b =>
      match mapOpt f t with
      | none => none
      | some bs => some (b :: bs)

/-- Parse a whole serialised mapping. -/
def jsonLoadPairsL (l : List Char) : Option (List (List Char × List Char)) :=
  if (splitCharL '\n' l).getLast? = some [] then
    mapOpt parseLine (splitCharL '\n' l).dropLast
  else none

/-- String-level mapping serialisation. -/
def jsonDumpPairs (ps : List (String × String)) : String :=
  String.mk (jsonDumpPairsL (ps.map (fun kv => (kv.1.data, kv.2.data))))

/-- String-level mapping parsing. -/
def jsonLoadPairs (s : String) : Option (List (String × String)) :=
  (jsonLoadPairsL s.data).map
    (fun ps => ps.map (fun kv => (String.mk kv.1, String.mk kv.2)))

/-! ## `save_bfs_state` / `load_bfs_state` (from the source)

The on-disk artifacts are three files under the output directory; a `Disk`
value holds their contents (`none` = file absent). -/

structure Disk where
  visitedFile : Option String
  toVisitFile : Option String
  mappingFile : Option String
deriving DecidableEq, Repr

/-- A directory with no state files. -/
def Disk.empty : Disk := ⟨none, none, none⟩

/-- One URL per line at the character level. -/
def saveLinesL : List (List Char) → List Char
  | [] => []
  | u :: t => u ++ '\n' :: saveLinesL t

/-- One URL per line, as written by `save_bfs_state`'s loops. -/
def saveLines (urls : List String) : String :=
  String.mk (saveLinesL (urls.map String.data))

/-- Line iteration at the character level (a trailing chunk without a newline
counts as a line), with Python's `strip()` applied to each line. -/
def loadLinesL (l : List Char) : List (List Char) :=
  (if (splitCharL '\n' l).getLast? = some [] then (splitCharL '\n' l).dropLast
   else splitCharL '\n' l).map trimL

/-- Read a line file the way `load_bfs_state` does. -/
def loadLines (s : String) : List String :=
  (loadLinesL s.data).map String.mk

/-- `save_bfs_state` from the source: persist the visited list, pending list
and URL-to-local mapping as the three state files. -/
def save_bfs_state (visited to_visit : List String)
    (url_to_local : List (String × String)) : Disk :=
  ⟨some (saveLines visited), some (saveLines to_visit),
    some (jsonDumpPairs url_to_local)⟩

/-- `load_bfs_state` from the source: read whichever state files exist;
missing files yield empty collections.  `none` models the exception
`json.load` raises on an unparseable mapping file. -/
def load_bfs_state (d : Disk) :
    Option (List String × List String × List (String × String)) :=
  let visited := match d.visitedFile with | none => [] | some s => loadLines s
  let to_visit := match d.toVisitFile with | none => [] | some s => loadLines s
  match d.mappingFile with
  | none => some (visited, to_visit, [])
  | some s =>
    match jsonLoadPairs s with
    | none => none
    | some m => some (visited, to_visit, m)

/-! ## Association-list and set-as-list helpers (Python `dict` / `set`) -/

/-- Python `d.get(k)` on the insertion-ordered dict model. -/
def lookupA : List (String × String) → String → Option String
  | [], _ => none
  | p :: t, k => if p.1 = k then some p.2 else lookupA t k

/-- Python `s.add(x)` on the set-as-list model (no-op when present). -/
def insertSet (x : String) (l : List String) : List String :=
  if x ∈ l then l else l ++ [x]

/-- The pattern `if k not in d: d[k] = v` on the dict model. -/
def insertMap (m : List (String × String)) (k v : String) :
    List (String × String) :=
  if (lookupA m k).isSome then m else m ++ [(k, v)]

/-! ## `rewrite_local_links` (from the source)

A fetched page is modelled by the list of `href` attributes of its anchor
tags — the only page content the crawler inspects or rewrites.  The rewriter
maps each href in place, exactly as the Python loop mutates the soup. -/

/-- Body of the rewriter's per-anchor loop: how one `href` of the page at
`current_url` (whose local file is `current_md_path`) is transformed. -/
def rewriteHref (current_url : String) (url_to_local : List (String × String))
    (current_md_path : String) (href : String) : String :=
  if href = "" ∨ strStarts href "#" then href
  else
    let absolute := urljoin current_url href
    match lookupA url_to_local absolute with
    | none => href
    | some target_md_path =>
      match relpath target_md_path (dirname current_md_path) with
      | some rp => rp
      | none => href

/-- `rewrite_local_links` from the source: rewrite anchors to relative local
paths; hrefs that are empty, pure fragments, unknown to `url_to_local`, or
whose relativisation fails are left unchanged, and the pass is a no-op when
the current page has no assigned local path. -/
def rewrite_local_links (hrefs : List String) (current_url : String)
    (url_to_local : List (String × String)) : List String :=
  match lookupA url_to_local current_url with
  | none => hrefs
  | some current_md_path =>
    hrefs.map (rewriteHref current_url url_to_local current_md_path)

/-- Model of `markdownify` (external collaborator): renders the page content
the model tracks.  The claims never inspect the rendered text itself. -/
def convert_html_to_markdown (hrefs : List String) : String :=
  String.intercalate "\n" hrefs

/-! ## The crawl engine (`scrape_crawl` from the source)

The `while to_visit` loop becomes `crawlLoop` (fuel-indexed); one dequeued,
not-yet-visited URL is handled by `processUrl`.  Effects are recorded as an
event trace: fetch attempts, state persists, file writes.  The fetcher
collaborator is a parameter returning page hrefs, a failure (any exception
caught by the inner `try`), or a `KeyboardInterrupt` surfacing during the
blocking call; file writes (`os.makedirs` + `open(...).write`) succeed or
raise `IOError` according to the `writeOk` parameter. -/

structure Frontier where
  visited : List String
  pending : List String
  urlToLocal : List (String × String)
deriving DecidableEq, Repr

inductive FetchOutcome where
  | ok (hrefs : List String)
  | fail
  | interrupt
deriving DecidableEq, Repr

inductive Fault where
  | ioError (path : String)
  | interrupt
  | parseError
deriving DecidableEq, Repr

inductive Ev where
  | fetchEv (url : String)
  | persistEv (fr : Frontier)
  | writeEv (path content : String)
deriving DecidableEq, Repr

inductive StepRes where
  | next (fr : Frontier) (evs : List Ev)
  | raised (fr : Frontier) (evs : List Ev) (e : Fault)
deriving DecidableEq, Repr

structure Config where
  start_url : String
  output_dir : String
  root_dir : String
  scope : Option String

/-- Python truthiness of the optional `scope` argument (`None` and `""` are
falsy). -/
def truthy : Option String → Bool
  | none => false
  | some s => !(s == "")

/-- Python `scope in url`, evaluated only under a truthy scope. -/
def scopeIn (sc : Option String) (u : String) : Bool :=
  match sc with
  | none => false
  | some s => strContains u s

/-- The `is_in_scope` expression of the link-extraction loop:
`(not scope) or (scope in absolute) or (absolute == start_url)`. -/
def isInScope (cfg : Config) (u : String) : Bool :=
  !(truthy cfg.scope) || scopeIn cfg.scope u || u == cfg.start_url

/-- The sequential `should_save` conditionals of `scrape_crawl`
(lines 270–319), translated statement by statement. -/
def shouldSaveCode (cfg : Config) (url : String) : Bool :=
  let s0 := true
  let s1 := if truthy cfg.scope && !(scopeIn cfg.scope url) then false else s0
  let s2 := if url == cfg.start_url then true else s1
  if truthy cfg.scope && !(scopeIn cfg.scope url) && !(url == cfg.start_url)
  then false else s2

/-- The closed-form save-eligibility predicate stated by the spec:
saved iff no scope is configured, or the scope substring occurs in the URL,
or the URL is the seed. -/
def saveEligible (cfg : Config) (u : String) : Bool :=
  !(truthy cfg.scope) || scopeIn cfg.scope u || u == cfg.start_url

/-- One step of the link-extraction loop (lines 242–267): scope-check one
href and update `(to_visit, url_to_local)`. -/
def extractStep (cfg : Config) (dom : String) (visited : List String)
    (url : String) (acc : List String × List (String × String))
    (href : String) : List String × List (String × String) :=
  if href = "" ∨ strStarts href "#" then acc
  else
    let absolute := urljoin url href
    if (urlparse absolute).netloc = dom then
      let pend := if absolute ∈ visited then acc.1 else insertSet absolute acc.1
      let utl :=
        if isInScope cfg absolute then
          insertMap acc.2 absolute
            (url_to_filename absolute cfg.root_dir cfg.output_dir)
        else acc.2
      (pend, utl)
    else acc

/-- The loop body of `scrape_crawl` for a popped URL not yet visited:
mark visited, assign its local path, fetch, extract links, decide on saving,
write, persist.  `pending` is the frontier after the pop. -/
def processUrl (cfg : Config) (fetch : String → FetchOutcome)
    (writeOk : String → Bool) (url : String) (visited pending : List String)
    (utl : List (String × String)) : StepRes :=
  let visited' := insertSet url visited
  let utl0 := insertMap utl url
    (url_to_filename url cfg.root_dir cfg.output_dir)
  match fetch url with
  | .fail =>
    .next ⟨visited', pending, utl0⟩
      [.fetchEv url, .persistEv ⟨visited', pending, utl0⟩]
  | .interrupt => .raised ⟨visited', pending, utl0⟩ [.fetchEv url] .interrupt
  | .ok hrefs =>
    let dom := (urlparse cfg.start_url).netloc
    let ext := hrefs.foldl (extractStep cfg dom visited' url) (pending, utl0)
    if shouldSaveCode cfg url then
      let utl2 := insertMap ext.2 url
        (url_to_filename url cfg.root_dir cfg.output_dir)
      let hrefs' := rewrite_local_links hrefs url utl2
      let md := convert_html_to_markdown hrefs'
      let lp := (lookupA utl2 url).getD ""
      if writeOk lp then
        .next ⟨visited', ext.1, utl2⟩
          [.fetchEv url, .writeEv lp md, .persistEv ⟨visited', ext.1, utl2⟩]
      else .raised ⟨visited', ext.1, utl2⟩ [.fetchEv url] (.ioError lp)
    else
      .next ⟨visited', ext.1, ext.2⟩
        [.fetchEv url, .persistEv ⟨visited', ext.1, ext.2⟩]

inductive RunEnd where
  | done
  | stopped (e : Fault)
  | fuelOut
deriving DecidableEq, Repr

/-- The `while to_visit` loop, fuel-indexed.  A popped URL already in
`visited` is discarded without processing; a raised fault aborts the loop. -/
def crawlLoop (cfg : Config) (fetch : String → FetchOutcome)
    (writeOk : String → Bool) : Frontier → Nat → Frontier × List Ev × RunEnd
  | fr, 0 => (fr, [], .fuelOut)
  | fr, fuel + 1 =>
    match fr.pending with
    | [] => (fr, [], .done)
    | url :: rest =>
      if url ∈ fr.visited then
        crawlLoop cfg fetch writeOk ⟨fr.visited, rest, fr.urlToLocal⟩ fuel
      else
        match processUrl cfg fetch writeOk url fr.visited rest fr.urlToLocal with
        | .next fr' evs =>
          let r := crawlLoop cfg fetch writeOk fr' fuel
          (r.1, evs ++ r.2.1, r.2.2)
        | .raised fr' evs e => (fr', evs, .stopped e)

inductive Status where
  | completed
  | interruptedRun
  | faultedRun (e : Fault)
  | hung
deriving DecidableEq, Repr

/-- The frontier-initialisation step of `scrape_crawl` (lines 206–212): keep
the loaded state, or start fresh from the seed when nothing was visited nor
pending (the seed enters `pending` with its mapped local path). -/
def initFrontier (cfg : Config)
    (loaded : List String × List String × List (String × String)) : Frontier :=
  if loaded.1 = [] ∧ loaded.2.1 = [] then
    ⟨loaded.1, [cfg.start_url],
      [(cfg.start_url, url_to_filename cfg.start_url cfg.root_dir cfg.output_dir)]⟩
  else ⟨loaded.1, loaded.2.1, loaded.2.2⟩

/-- `scrape_crawl` from the source: load or initialise the frontier, run the
loop, and handle `KeyboardInterrupt` / `Exception` by persisting state and
returning normally.  An `Except.error` result would model an exception
escaping `scrape_crawl` itself; the only one that can is the (uncaught)
parse failure while loading state, before the `try` block. -/
def scrape_crawl (cfg : Config) (fetch : String → FetchOutcome)
    (writeOk : String → Bool) (d : Disk) (fuel : Nat) :
    Except Fault (Frontier × List Ev × Status) :=
  match load_bfs_state d with
  | none => .error .parseError
  | some loaded =>
    match crawlLoop cfg fetch writeOk (initFrontier cfg loaded) fuel with
    | (fr, evs, .done) => .ok (fr, evs, .completed)
    | (fr, evs, .fuelOut) => .ok (fr, evs, .hung)
    | (fr, evs, .stopped .interrupt) =>
      .ok (fr, evs ++ [.persistEv fr], .interruptedRun)
    | (fr, evs, .stopped e) => .ok (fr, evs ++ [.persistEv fr], .faultedRun e)

/-! ## Projections for stating facts about concrete runs -/

/-- Final frontier of a run that returned normally. -/
def frontierOf (r : Except Fault (Frontier × List Ev × Status)) : Frontier :=
  match r with
  | .ok (fr, _, _) => fr
  | .error _ => ⟨[], [], []⟩

/-- Event trace of a run that returned normally. -/
def evsOf (r : Except Fault (Frontier × List Ev × Status)) : List Ev :=
  match r with
  | .ok (_, evs, _) => evs
  | .error _ => []

/-- Final status of a run that returned normally. -/
def statusOf (r : Except Fault (Frontier × List Ev × Status)) : Status :=
  match r with
  | .ok (_, _, st) => st
  | .error _ => .hung

/-- Whether an exception escaped `scrape_crawl` itself. -/
def escapedError (r : Except Fault (Frontier × List Ev × Status)) : Bool :=
  match r with
  | .error _ => true
  | .ok _ => false

/-! ## Shared lemmas about the set / dict models -/

lemma lookupA_append_some {m : List (String × String)} {k v : String}
    (l : List (String × String)) (h : lookupA m k = some v) :
    lookupA (m ++ l) k = some v := by
  induction m with
  | nil => simp [lookupA] at h
  | cons p t ih =>
    rw [List.cons_append]
    by_cases hp : p.1 = k
    · simp only [lookupA, hp, if_pos] at h ⊢
      exact h
    · simp only [lookupA, hp, if_neg, if_false] at h ⊢
      exact ih h

lemma lookupA_append_none {m : List (String × String)} {k : String}
    (l : List (String × String)) (h : lookupA m k = none) :
    lookupA (m ++ l) k = lookupA l k := by
  induction m with
  | nil => simp
  | cons p t ih =>
    rw [List.cons_append]
    by_cases hp : p.1 = k
    · simp only [lookupA, hp, if_pos] at h
      exact absurd h (by simp)
    · simp only [lookupA, hp, if_neg, if_false] at h ⊢
      exact ih h

lemma lookupA_insertMap_self (m : List (String × String)) (k v : String) :
    ∃ w, lookupA (insertMap m k v) k = some w := by
  unfold insertMap
  cases h : lookupA m k with
  | some w =>
    simp only [h, Option.isSome_some, if_pos]
    exact ⟨w, rfl⟩
  | none =>
    simp only [h, Option.isSome_none, Bool.false_eq_true, if_false]
    rw [lookupA_append_none _ h]
    exact ⟨v, by simp [lookupA]⟩

lemma lookupA_insertMap_cases {m : List (String × String)} {k v k' w : String}
    (h : lookupA (insertMap m k v) k' = some w) :
    lookupA m k' = some w ∨ k' = k := by
  unfold insertMap at h
  split at h
  · exact Or.inl h
  · cases hk : lookupA m k' with
    | some w' => rw [lookupA_append_some _ hk] at h; exact Or.inl h
    | none =>
      rw [lookupA_append_none _ hk] at h
      by_cases hkk : k = k'
      · exact Or.inr hkk.symm
      · simp [lookupA, hkk] at h

lemma lookupA_insertMap_mono {m : List (String × String)} {k' : String}
    (k v : String) (h : (lookupA m k').isSome = true) :
    (lookupA (insertMap m k v) k').isSome = true := by
  unfold insertMap
  split
  · exact h
  · cases hk : lookupA m k' with
    | some w => rw [lookupA_append_some _ hk]; rfl
    | none => rw [hk] at h; simp at h

lemma mem_insertSet {u x : String} {l : List String} :
    u ∈ insertSet x l ↔ u = x ∨ u ∈ l := by
  unfold insertSet
  split
  · constructor
    · exact Or.inr
    · rintro (rfl | h) <;> assumption
  · simp [or_comm]

lemma self_mem_insertSet (x : String) (l : List String) : x ∈ insertSet x l :=
  mem_insertSet.mpr (Or.inl rfl)

/-- The sequential `should_save` conditionals compute exactly the closed-form
save-eligibility predicate. -/
lemma shouldSave_eq_saveEligible (cfg : Config) (u : String) :
    shouldSaveCode cfg u = saveEligible cfg u := by
  unfold shouldSaveCode saveEligible
  cases h1 : truthy cfg.scope <;> cases h2 : scopeIn cfg.scope u <;>
    cases h3 : u == cfg.start_url <;> simp [h1, h2, h3]

/-- C1: in crawl mode, a dequeued URL that is fetched successfully and
processed gets a Markdown file written to its mapped local path if and only
if it is save-eligible (no scope substring configured, or the scope substring
occurs in the URL, or the URL is the seed); an ineligible page is still
traversed — its links are extracted and enqueued exactly as for an eligible
page — but produces no write. -/
theorem c1_save_eligibility (cfg : Config) (fetch : String → FetchOutcome)
    (writeOk : String → Bool) (url : String) (visited pending : List String)
    (utl : List (String × String)) (hrefs : List String)
    (hf : fetch url = .ok hrefs) (hw : ∀ p, writeOk p = true) :
    ∃ fr' evs,
      processUrl cfg fetch writeOk url visited pending utl = .next fr' evs ∧
        ((∃ c p, Ev.writeEv p c ∈ evs ∧ lookupA fr'.urlToLocal url = some p) ↔
          saveEligible cfg url = true) ∧
        fr'.pending =
          (hrefs.foldl
            (extractStep cfg (urlparse cfg.start_url).netloc
              (insertSet url visited) url)
            (pending,
              insertMap utl url
                (url_to_filename url cfg.root_dir cfg.output_dir))).1 := by
  unfold processUrl
  rw [hf]
  simp only [shouldSave_eq_saveEligible]
  cases hse : saveEligible cfg url with
  | true =>
    simp only [if_pos]
    rw [hw]
    simp only [if_pos]
    refine ⟨_, _, rfl, ?_, rfl⟩
    simp only [hse, iff_true]
    set utl2 := insertMap
      ((hrefs.foldl
        (extractStep cfg (urlparse cfg.start_url).netloc
          (insertSet url visited) url)
        (pending,
          insertMap utl url
            (url_to_filename url cfg.root_dir cfg.output_dir))).2)
      url (url_to_filename url cfg.root_dir cfg.output_dir) with hutl2
    obtain ⟨w, hww⟩ := lookupA_insertMap_self
      ((hrefs.foldl
        (extractStep cfg (urlparse cfg.start_url).netloc
          (insertSet url visited) url)
        (pending,
          insertMap utl url
            (url_to_filename url cfg.root_dir cfg.output_dir))).2) url
      (url_to_filename url cfg.root_dir cfg.output_dir)
    rw [← hutl2] at hww
    refine ⟨convert_html_to_markdown (rewrite_local_links hrefs url utl2), w,
      ?_, hww⟩
    rw [hww]
    simp
  | false =>
    simp only [Bool.false_eq_true, if_false]
    refine ⟨_, _, rfl, ?_, rfl⟩
    simp only [hse, Bool.false_eq_true, iff_false]
    rintro ⟨c, p, hmem, -⟩
    simp at hmem

/-- C2 counterexample: the claim that `urlToLocal` only ever contains
save-eligible URLs is false.  In this crawl (scope `"scope"`), the
out-of-scope page `https://example.com/other/a` is dequeued and visited, and
the engine assigns it a local path before fetching (line 227) even though it
is not save-eligible — so its entry is present in the final mapping. -/
theorem c2_counterexample :
    (lookupA
        (frontierOf
          (scrape_crawl
            ⟨"https://example.com/start", "/out", "example.com", some "scope"⟩
            (fun u =>
              if u = "https://example.com/start" then FetchOutcome.ok ["/other/a"]
              else FetchOutcome.ok [])
            (fun _ => true) Disk.empty 5)).urlToLocal
        "https://example.com/other/a").isSome = true ∧
      saveEligible
        ⟨"https://example.com/start", "/out", "example.com", some "scope"⟩
        "https://example.com/other/a" = false ∧
      "https://example.com/other/a" ∈
        (frontierOf
          (scrape_crawl
            ⟨"https://example.com/start", "/out", "example.com", some "scope"⟩
            (fun u =>
              if u = "https://example.com/start" then FetchOutcome.ok ["/other/a"]
              else FetchOutcome.ok [])
            (fun _ => true) Disk.empty 5)).visited := by
  refine ⟨?_, ?_, ?_⟩ <;> decide

/-- C3 counterexample: both halves of the link-rewrite-safety claim fail on
the code.  (a) An href whose resolved absolute URL has no `urlToLocal` entry
is left as its ORIGINAL text (here the relative `"/other/x"`), not
byte-identical to its resolved absolute form.  (b) In a crawl where the
out-of-scope page `other/a` is visited before the in-scope page `scope/b`
links back to it, the saved file `scope/b.md` gets the rewritten relative
href `"../other/a.md"` although no write to `/out/other/a.md` ever happens —
the rewritten href does not resolve to a file the crawl writes. -/
theorem c3_counterexample :
    (rewrite_local_links ["/other/x"] "https://example.com/a"
        [("https://example.com/a", "/out/a.md")] = ["/other/x"] ∧
      urljoin "https://example.com/a" "/other/x" = "https://example.com/other/x" ∧
      ("/other/x" : String) ≠ "https://example.com/other/x") ∧
    (Ev.writeEv "/out/scope/b.md" "../other/a.md" ∈
        evsOf
          (scrape_crawl
            ⟨"https://example.com/start", "/out", "example.com", some "scope"⟩
            (fun u =>
              if u = "https://example.com/start" then FetchOutcome.ok ["/other/a"]
              else if u = "https://example.com/other/a" then
                FetchOutcome.ok ["/scope/b"]
              else if u = "https://example.com/scope/b" then
                FetchOutcome.ok ["/other/a"]
              else FetchOutcome.ok [])
            (fun _ => true) Disk.empty 6) ∧
      (evsOf
          (scrape_crawl
            ⟨"https://example.com/start", "/out", "example.com", some "scope"⟩
            (fun u =>
              if u = "https://example.com/start" then FetchOutcome.ok ["/other/a"]
              else if u = "https://example.com/other/a" then
                FetchOutcome.ok ["/scope/b"]
              else if u = "https://example.com/scope/b" then
                FetchOutcome.ok ["/other/a"]
              else FetchOutcome.ok [])
            (fun _ => true) Disk.empty 6)).all
        (fun e =>
          match e with
          | Ev.writeEv p _ => p != "/out/other/a.md"
          | _ => true) = true) := by
  refine ⟨⟨?_, ?_, ?_⟩, ?_, ?_⟩ <;> decide

/-- C9 counterexample: an `IOError` during the page write does NOT propagate
out of the crawl engine.  With a write that always fails, `scrape_crawl`
catches the error (the `except Exception` handler), persists the frontier as
its final action, and returns normally — no exception escapes. -/
theorem c9_counterexample :
    escapedError
        (scrape_crawl ⟨"https://example.com/start", "/out", "example.com", none⟩
          (fun _ => FetchOutcome.ok []) (fun _ => false) Disk.empty 3) = false ∧
      statusOf
          (scrape_crawl ⟨"https://example.com/start", "/out", "example.com", none⟩
            (fun _ => FetchOutcome.ok []) (fun _ => false) Disk.empty 3) =
        Status.faultedRun (Fault.ioError "/out/start.md") ∧
      (evsOf
          (scrape_crawl ⟨"https://example.com/start", "/out", "example.com", none⟩
            (fun _ => FetchOutcome.ok []) (fun _ => false) Disk.empty 3)).getLast? =
        some (Ev.persistEv
          (frontierOf
            (scrape_crawl
              ⟨"https://example.com/start", "/out", "example.com", none⟩
              (fun _ => FetchOutcome.ok []) (fun _ => false) Disk.empty 3))) := by
  refine ⟨?_, ?_, ?_⟩ <;> decide

/-- Modelled from the claim's wording of the PathMapper algorithm (spec
section 4.1): concatenate host+path of the URL (query/fragment dropped),
strip any scheme from the root scope, clean both of trailing separators,
take the remainder when the cleaned URL starts with the cleaned root scope
and the whole cleaned URL otherwise, trim separators, map an empty remainder
to `"index"`, sanitise per segment, and append `.md` to the final segment.
Stated for comparison against the source's `url_to_filename`. -/
def pathMapperSpec (url rootScope outputRoot : String) : String :=
  let cleanedUrl : List Char :=
    rstripSlashL ((urlparse url).netloc.data ++ (urlparse url).path.data)
  let cleanedRoot : List Char :=
    if strContains rootScope "://" then
      rstripSlashL ((urlparse rootScope).netloc.data ++ (urlparse rootScope).path.data)
    else rstripSlashL rootScope.data
  let remainder :=
    if isPre cleanedRoot cleanedUrl then cleanedUrl.drop cleanedRoot.length
    else cleanedUrl
  let trimmed := stripSlashL remainder
  let segs :=
    (splitCharL '/' (if trimmed = [] then "index".data else trimmed)).map
      (fun seg => sanitize_filename (String.mk seg))
  joinPath outputRoot (segs.dropLast ++ [segs.getLastD "" ++ ".md"])

lemma data_strMk (l : List Char) : (String.mk l).data = l := rfl

lemma strMk_ite_empty (l : List Char) (a b : String) :
    (if String.mk l = "" then a else b) = (if l = [] then a else b) := by
  by_cases h : l = []
  · subst h
    rw [if_pos rfl, if_pos rfl]
  · rw [if_neg h]
    rw [if_neg]
    intro hc
    exact h (by simpa using congrArg String.data hc)

/-- C5: `url_to_filename` computes exactly the PathMapper algorithm as the
spec words it (host+path concatenation, scheme-stripped root scope,
remainder-or-whole fallback, separator trimming, empty remainder to
`"index"`, per-segment sanitisation, `.md` suffix on the final segment), and
on the spec's scenario it maps
`https://docs.x.com/en/guides/concepts/page` with root scope
`docs.x.com/en/guides` and output `/out` to `/out/concepts/page.md`. -/
theorem c5_pathmapper :
    (∀ url rootScope outputRoot,
        url_to_filename url rootScope outputRoot =
          pathMapperSpec url rootScope outputRoot) ∧
      url_to_filename "https://docs.x.com/en/guides/concepts/page"
        "docs.x.com/en/guides" "/out" = "/out/concepts/page.md" := by
  constructor
  · intro url rootScope outputRoot
    simp only [url_to_filename, pathMapperSpec, String.data_append, strStarts,
      splitCharS, data_strMk, apply_ite String.data, List.map_map,
      Function.comp_def, strMk_ite_empty]
  · decide

/-! ## Round-trip lemmas for the frontier store -/

lemma escStr_cons (c : Char) (t : List Char) :
    escStr (c :: t) = escChar c ++ escStr t := rfl

lemma splitCharL_cons (sep c : Char) (t : List Char) :
    splitCharL sep (c :: t) =
      if c = sep then [] :: splitCharL sep t
      else
        match splitCharL sep t with
        | [] => [[c]]
        | h :: r => (c :: h) :: r := by
  rw [splitCharL.eq_def]

lemma splitCharL_append_sep (sep : Char) (u rest : List Char) (h : sep ∉ u) :
    splitCharL sep (u ++ sep :: rest) = u :: splitCharL sep rest := by
  induction u with
  | nil => simp [splitCharL_cons]
  | cons c t ih =>
    have hc : ¬c = sep := fun hc => h (hc ▸ List.mem_cons_self c t)
    rw [List.cons_append, splitCharL_cons, if_neg hc,
      ih (fun hm => h (List.mem_cons_of_mem _ hm))]

lemma splitCharL_saveLinesL (us : List (List Char))
    (h : ∀ u ∈ us, '\n' ∉ u) :
    splitCharL '\n' (saveLinesL us) = us ++ [[]] := by
  induction us with
  | nil => simp [saveLinesL, splitCharL]
  | cons u t ih =>
    rw [saveLinesL, splitCharL_append_sep _ _ _ (h u (by simp))]
    rw [ih (fun v hv => h v (by simp [hv]))]
    rfl

lemma loadLinesL_saveLinesL (us : List (List Char))
    (hn : ∀ u ∈ us, '\n' ∉ u) (ht : ∀ u ∈ us, trimL u = u) :
    loadLinesL (saveLinesL us) = us := by
  unfold loadLinesL
  rw [splitCharL_saveLinesL us hn, List.getLast?_concat, if_pos rfl,
    List.dropLast_concat]
  have hmap : ∀ vs : List (List Char), (∀ u ∈ vs, trimL u = u) →
      vs.map trimL = vs := by
    intro vs hvs
    induction vs with
    | nil => rfl
    | cons a t ih => simp [hvs a (by simp), ih (fun v hv => hvs v (by simp [hv]))]
  exact hmap us ht

lemma parseQuoted_cons (c : Char) (t : List Char) :
    parseQuoted (c :: t) =
      if c = '\\' then
        match t with
        | [] => none
        | c2 :: t2 =>
          match parseQuoted t2 with
          | some (s, r) => some (unescChar c2 :: s, r)
          | none => none
      else if c = '"' then some ([], t)
      else
        match parseQuoted t with
        | some (s, r) => some (c :: s, r)
        | none => none := by
  rw [parseQuoted.eq_def]

lemma parseQuoted_escStr (s rest : List Char) :
    parseQuoted (escStr s ++ '"' :: rest) = some (s, rest) := by
  induction s with
  | nil =>
    show parseQuoted ('"' :: rest) = some ([], rest)
    rw [parseQuoted_cons]
    rfl
  | cons c t ih =>
    rw [escStr_cons]
    unfold escChar
    split_ifs with h1 h2 h3 h4
    · rcases h1 with h | h <;> subst h <;>
        · simp only [List.append_assoc, List.cons_append, List.nil_append]
          rw [parseQuoted_cons, if_pos rfl]
          simp only [ih]
          rfl
    · subst h2
      simp only [List.append_assoc, List.cons_append, List.nil_append]
      rw [parseQuoted_cons, if_pos rfl]
      simp only [ih]
      rfl
    · subst h3
      simp only [List.append_assoc, List.cons_append, List.nil_append]
      rw [parseQuoted_cons, if_pos rfl]
      simp only [ih]
      rfl
    · subst h4
      simp only [List.append_assoc, List.cons_append, List.nil_append]
      rw [parseQuoted_cons, if_pos rfl]
      simp only [ih]
      rfl
    · push_neg at h1
      simp only [List.append_assoc, List.cons_append, List.nil_append]
      rw [parseQuoted_cons, if_neg h1.2, if_neg h1.1]
      simp only [ih]

lemma newline_not_mem_escChar (c : Char) : '\n' ∉ escChar c := by
  unfold escChar
  split_ifs with h1 h2 h3 h4
  · rcases h1 with h | h <;> subst h <;> decide
  · subst h2; decide
  · subst h3; decide
  · subst h4; decide
  · intro hm
    rw [List.mem_singleton] at hm
    exact h2 hm.symm

lemma newline_not_mem_escStr (s : List Char) : '\n' ∉ escStr s := by
  induction s with
  | nil => simp [escStr]
  | cons c t ih =>
    rw [escStr_cons]
    intro hm
    rcases List.mem_append.mp hm with h | h
    · exact newline_not_mem_escChar c h
    · exact ih h

lemma newline_not_mem_lineOfPair (kv : List Char × List Char) :
    '\n' ∉ lineOfPair kv := by
  unfold lineOfPair
  intro hm
  simp only [List.mem_cons, List.mem_append, List.mem_singleton] at hm
  rcases hm with h | h | h | h | h | h | h
  · exact absurd h (by decide)
  · exact newline_not_mem_escStr _ h
  · exact absurd h (by decide)
  · exact absurd h (by decide)
  · exact absurd h (by decide)
  · exact newline_not_mem_escStr _ h
  · exact absurd h (by decide)

lemma parseLine_lineOfPair (kv : List Char × List Char) :
    parseLine (lineOfPair kv) = some kv := by
  obtain ⟨k, v⟩ := kv
  show parseLine ('"' :: (escStr k ++ ('"' :: ':' :: '"' :: (escStr v ++ ['"'])))) =
    some (k, v)
  unfold parseLine
  simp only [parseQuoted_escStr]

lemma mapOpt_lineOfPair (ps : List (List Char × List Char)) :
    mapOpt parseLine (ps.map lineOfPair) = some ps := by
  induction ps with
  | nil => rfl
  | cons kv t ih => simp [mapOpt, parseLine_lineOfPair, ih]

lemma jsonLoadPairsL_dump (ps : List (List Char × List Char)) :
    jsonLoadPairsL (jsonDumpPairsL ps) = some ps := by
  unfold jsonLoadPairsL
  have hsplit : splitCharL '\n' (jsonDumpPairsL ps) = ps.map lineOfPair ++ [[]] := by
    induction ps with
    | nil => rfl
    | cons kv t ih =>
      show splitCharL '\n' (lineOfPair kv ++ '\n' :: jsonDumpPairsL t) = _
      rw [splitCharL_append_sep _ _ _ (newline_not_mem_lineOfPair kv), ih]
      rfl
  rw [hsplit, List.getLast?_concat, if_pos rfl, List.dropLast_concat,
    mapOpt_lineOfPair]

lemma jsonLoadPairs_dumpPairs (m : List (String × String)) :
    jsonLoadPairs (jsonDumpPairs m) = some m := by
  unfold jsonLoadPairs jsonDumpPairs
  rw [data_strMk, jsonLoadPairsL_dump]
  have hfun : (fun kv : String × String =>
      (String.mk kv.1.data, String.mk kv.2.data)) = id := by
    funext kv; rfl
  simp [List.map_map, Function.comp_def, hfun]

lemma not_mem_of_hasSub_single_false {c : Char} {l : List Char}
    (h : hasSub [c] l = false) : c ∉ l := by
  induction l with
  | nil => simp
  | cons a t ih =>
    simp only [hasSub, isPre, Bool.and_true, Bool.or_eq_false_iff] at h
    intro hm
    rcases List.mem_cons.mp hm with rfl | hm2
    · simp at h
    · exact ih h.2 hm2

lemma loadLines_saveLines (v : List String)
    (h : ∀ u ∈ v, trimL u.data = u.data ∧ '\n' ∉ u.data) :
    loadLines (saveLines v) = v := by
  unfold loadLines saveLines
  rw [data_strMk, loadLinesL_saveLinesL]
  · rw [List.map_map]
    have hid : (String.mk ∘ String.data) = id := by funext s; rfl
    rw [hid, List.map_id]
  · intro u hu
    obtain ⟨w, hw, rfl⟩ := List.mem_map.mp hu
    exact (h w hw).2
  · intro u hu
    obtain ⟨w, hw, rfl⟩ := List.mem_map.mp hu
    exact (h w hw).1

/-- C8: saving the frontier state (visited set, pending set, URL-to-local
mapping) and loading it back returns exactly the collections saved, for
every triple whose entries are URLs in the sense of the data model (no
surrounding whitespace, no embedded newline — `load` strips each line, so
entries that are not already stripped could not survive any line format). -/
theorem c8_save_load_roundtrip (v p : List String) (m : List (String × String))
    (hv : ∀ u ∈ v, pyStrip u = u ∧ strContains u "\n" = false)
    (hp : ∀ u ∈ p, pyStrip u = u ∧ strContains u "\n" = false) :
    load_bfs_state (save_bfs_state v p m) = some (v, p, m) := by
  have conv : ∀ (w : List String),
      (∀ u ∈ w, pyStrip u = u ∧ strContains u "\n" = false) →
      ∀ u ∈ w, trimL u.data = u.data ∧ '\n' ∉ u.data := by
    intro w hw u hu
    refine ⟨?_, ?_⟩
    · have := congrArg String.data ((hw u hu).1)
      simpa [pyStrip] using this
    · exact not_mem_of_hasSub_single_false ((hw u hu).2)
  show (match jsonLoadPairs (jsonDumpPairs m) with
    | none => none
    | some mm => some (loadLines (saveLines v), loadLines (saveLines p), mm)) =
    some (v, p, m)
  rw [jsonLoadPairs_dumpPairs, loadLines_saveLines v (conv v hv),
    loadLines_saveLines p (conv p hp)]

/-- Witness for `c8_save_load_roundtrip` at a concrete frontier triple. -/
theorem c8_save_load_roundtrip_witness :
    load_bfs_state
        (save_bfs_state ["https://example.com/start", "https://example.com/a"]
          ["https://example.com/b"]
          [("https://example.com/start", "/out/start.md")]) =
      some (["https://example.com/start", "https://example.com/a"],
        ["https://example.com/b"],
        [("https://example.com/start", "/out/start.md")]) :=
  c8_save_load_roundtrip _ _ _ (by decide) (by decide)

/-- Witness for `c1_save_eligibility` at a concrete input. -/
theorem c1_save_eligibility_witness :
    ∃ fr' evs,
      processUrl ⟨"https://example.com/start", "/out", "example.com", some "scope"⟩
          (fun _ => FetchOutcome.ok ["/scope/b"]) (fun _ => true)
          "https://example.com/start" [] [] [] = .next fr' evs ∧
        ((∃ c p, Ev.writeEv p c ∈ evs ∧ lookupA fr'.urlToLocal
            "https://example.com/start" = some p) ↔
          saveEligible
            ⟨"https://example.com/start", "/out", "example.com", some "scope"⟩
            "https://example.com/start" = true) ∧
        fr'.pending =
          (["/scope/b"].foldl
            (extractStep
              ⟨"https://example.com/start", "/out", "example.com", some "scope"⟩
              (urlparse "https://example.com/start").netloc
              (insertSet "https://example.com/start" []) "https://example.com/start")
            ([],
              insertMap [] "https://example.com/start"
                (url_to_filename "https://example.com/start" "example.com" "/out"))).1 :=
  c1_save_eligibility _ _ _ _ _ _ _ _ rfl (fun _ => rfl)

/-! ## Engine step and loop lemmas -/

/-- Frontier carried by a step result. -/
def stepFrontier : StepRes → Frontier
  | .next fr _ => fr
  | .raised fr _ _ => fr

/-- Events emitted by a step result. -/
def stepEvs : StepRes → List Ev
  | .next _ evs => evs
  | .raised _ evs _ => evs

lemma crawlLoop_zero (cfg : Config) (fetch : String → FetchOutcome)
    (writeOk : String → Bool) (fr : Frontier) :
    crawlLoop cfg fetch writeOk fr 0 = (fr, [], .fuelOut) := rfl

lemma crawlLoop_succ (cfg : Config) (fetch : String → FetchOutcome)
    (writeOk : String → Bool) (fr : Frontier) (fuel : Nat) :
    crawlLoop cfg fetch writeOk fr (fuel + 1) =
      match fr.pending with
      | [] => (fr, [], .done)
      | url :: rest =>
        if url ∈ fr.visited then
          crawlLoop cfg fetch writeOk ⟨fr.visited, rest, fr.urlToLocal⟩ fuel
        else
          match processUrl cfg fetch writeOk url fr.visited rest fr.urlToLocal with
          | .next fr' evs =>
            let r := crawlLoop cfg fetch writeOk fr' fuel
            (r.1, evs ++ r.2.1, r.2.2)
          | .raised fr' evs e => (fr', evs, .stopped e) := rfl

lemma processUrl_fail_eq (cfg : Config) (writeOk : String → Bool)
    (url : String) (visited pending : List String) (utl : List (String × String))
    {fetch : String → FetchOutcome} (h : fetch url = .fail) :
    processUrl cfg fetch writeOk url visited pending utl =
      .next
        ⟨insertSet url visited, pending,
          insertMap utl url (url_to_filename url cfg.root_dir cfg.output_dir)⟩
        [.fetchEv url,
          .persistEv
            ⟨insertSet url visited, pending,
              insertMap utl url (url_to_filename url cfg.root_dir cfg.output_dir)⟩] := by
  unfold processUrl
  rw [h]

lemma extractStep_pending_mem {cfg : Config} {dom : String}
    {visited : List String} {url : String}
    {acc : List String × List (String × String)} {href u : String}
    (h : u ∈ (extractStep cfg dom visited url acc href).1) :
    u ∈ acc.1 ∨ (urlparse u).netloc = dom := by
  simp only [extractStep] at h
  split at h
  · exact Or.inl h
  · split at h
    · split at h
      · exact Or.inl h
      · rcases mem_insertSet.mp h with rfl | hm
        · right; assumption
        · exact Or.inl hm
    · exact Or.inl h

lemma extract_foldl_pending_mem {cfg : Config} {dom : String}
    {visited : List String} {url : String} (hrefs : List String)
    (acc : List String × List (String × String)) {u : String}
    (h : u ∈ (hrefs.foldl (extractStep cfg dom visited url) acc).1) :
    u ∈ acc.1 ∨ (urlparse u).netloc = dom := by
  induction hrefs generalizing acc with
  | nil => exact Or.inl h
  | cons a t ih =>
    rw [List.foldl_cons] at h
    rcases ih _ h with h2 | h2
    · exact extractStep_pending_mem h2
    · exact Or.inr h2

lemma processUrl_pending_mem {cfg : Config} {fetch : String → FetchOutcome}
    {writeOk : String → Bool} {url : String} {visited pending : List String}
    {utl : List (String × String)} {u : String}
    (h : u ∈ (stepFrontier
      (processUrl cfg fetch writeOk url visited pending utl)).pending) :
    u ∈ pending ∨ (urlparse u).netloc = (urlparse cfg.start_url).netloc := by
  cases hfo : fetch url with
  | fail =>
    simp only [processUrl, hfo, stepFrontier] at h
    exact Or.inl h
  | interrupt =>
    simp only [processUrl, hfo, stepFrontier] at h
    exact Or.inl h
  | ok hrefs =>
    simp only [processUrl, hfo] at h
    split at h
    · split at h
      · simp only [stepFrontier] at h
        exact extract_foldl_pending_mem hrefs _ h
      · simp only [stepFrontier] at h
        exact extract_foldl_pending_mem hrefs _ h
    · simp only [stepFrontier] at h
      exact extract_foldl_pending_mem hrefs _ h

lemma crawlLoop_pending_sameHost {cfg : Config} {fetch : String → FetchOutcome}
    {writeOk : String → Bool} :
    ∀ (fuel : Nat) (fr : Frontier),
      (∀ u ∈ fr.pending, (urlparse u).netloc = (urlparse cfg.start_url).netloc) →
      ∀ u ∈ (crawlLoop cfg fetch writeOk fr fuel).1.pending,
        (urlparse u).netloc = (urlparse cfg.start_url).netloc := by
  intro fuel
  induction fuel with
  | zero => intro fr h u hu; exact h u hu
  | succ n ih =>
    intro fr h u hu
    rw [crawlLoop_succ] at hu
    cases hp : fr.pending with
    | nil => rw [hp] at hu; exact h u (hp ▸ hu)
    | cons url rest =>
      rw [hp] at hu
      simp only [] at hu
      have hrest : ∀ w ∈ rest, (urlparse w).netloc = (urlparse cfg.start_url).netloc :=
        fun w hw => h w (hp ▸ List.mem_cons_of_mem _ hw)
      by_cases hv : url ∈ fr.visited
      · rw [if_pos hv] at hu
        exact ih ⟨fr.visited, rest, fr.urlToLocal⟩ hrest u hu
      · rw [if_neg hv] at hu
        cases hres : processUrl cfg fetch writeOk url fr.visited rest fr.urlToLocal with
        | next fr' evs =>
          rw [hres] at hu
          have hfr' : ∀ w ∈ fr'.pending,
              (urlparse w).netloc = (urlparse cfg.start_url).netloc := by
            intro w hw
            have := @processUrl_pending_mem cfg fetch writeOk url
              fr.visited rest fr.urlToLocal w
            rw [hres] at this
            rcases this hw with h2 | h2
            · exact hrest w h2
            · exact h2
          exact ih fr' hfr' u hu
        | raised fr' evs e =>
          rw [hres] at hu
          have := @processUrl_pending_mem cfg fetch writeOk url
            fr.visited rest fr.urlToLocal u
          rw [hres] at this
          rcases this hu with h2 | h2
          · exact hrest u h2
          · exact h2

/-- C4: links resolving outside the seed's host are never enqueued.  First
conjunct: any URL in the pending set after a link-extraction pass was either
already pending or has the seed's host.  Second conjunct: the loop preserves
the invariant that every pending URL has the seed's host, so from any state
satisfying it (in particular the fresh state, whose only pending entry is the
seed itself) every URL ever in `pending` has the seed's host. -/
theorem c4_scope_containment :
    (∀ (cfg : Config) (visited : List String) (url : String)
        (hrefs pending : List String) (utl : List (String × String)) (u : String),
        u ∈ (hrefs.foldl
          (extractStep cfg (urlparse cfg.start_url).netloc visited url)
          (pending, utl)).1 →
        u ∈ pending ∨ (urlparse u).netloc = (urlparse cfg.start_url).netloc) ∧
    (∀ (cfg : Config) (fetch : String → FetchOutcome) (writeOk : String → Bool)
        (fr : Frontier) (fuel : Nat),
        (∀ u ∈ fr.pending, (urlparse u).netloc = (urlparse cfg.start_url).netloc) →
        ∀ u ∈ (crawlLoop cfg fetch writeOk fr fuel).1.pending,
          (urlparse u).netloc = (urlparse cfg.start_url).netloc) := by
  constructor
  · intro cfg visited url hrefs pending utl u h
    exact extract_foldl_pending_mem hrefs _ h
  · intro cfg fetch writeOk fr fuel h
    exact crawlLoop_pending_sameHost fuel fr h

/-- Witness for `c4_scope_containment` at concrete inputs. -/
theorem c4_scope_containment_witness :
    ("https://example.com/p" ∈ ([] : List String) ∨
      (urlparse "https://example.com/p").netloc =
        (urlparse "https://example.com/start").netloc) ∧
    (∀ u ∈ (crawlLoop ⟨"https://example.com/start", "/out", "example.com", none⟩
        (fun _ => FetchOutcome.ok ["/p"]) (fun _ => true)
        ⟨[], ["https://example.com/start"], []⟩ 3).1.pending,
      (urlparse u).netloc = (urlparse "https://example.com/start").netloc) :=
  ⟨c4_scope_containment.1
      ⟨"https://example.com/start", "/out", "example.com", none⟩
      [] "https://example.com/start" ["/p"] [] [] "https://example.com/p"
      (by decide),
    c4_scope_containment.2
      ⟨"https://example.com/start", "/out", "example.com", none⟩
      (fun _ => FetchOutcome.ok ["/p"]) (fun _ => true)
      ⟨[], ["https://example.com/start"], []⟩ 3 (by decide)⟩

lemma crawlLoop_allFail_done (cfg : Config) (writeOk : String → Bool) :
    ∀ (p v : List String) (m : List (String × String)),
      (crawlLoop cfg (fun _ => FetchOutcome.fail) writeOk ⟨v, p, m⟩
        (p.length + 1)).2.2 = RunEnd.done := by
  intro p
  induction p with
  | nil => intro v m; rfl
  | cons url rest ih =>
    intro v m
    rw [crawlLoop_succ]
    simp only [List.length_cons]
    by_cases hv : url ∈ v
    · rw [if_pos hv]
      exact ih v m
    · rw [if_neg hv]
      rw [processUrl_fail_eq cfg writeOk url v rest m rfl]
      simp only []
      exact ih _ _

/-- C6: a fetch failure on a dequeued URL is non-fatal.  First conjunct: the
loop body on a failing fetch persists the current frontier state and
continues to the next pending URL (it returns `.next`, never an abort).
Second conjunct: a crawl whose every fetch fails still drains the whole
pending set and reaches `DONE`. -/
theorem c6_fetch_failure_nonfatal :
    (∀ (cfg : Config) (fetch : String → FetchOutcome) (writeOk : String → Bool)
        (url : String) (visited pending : List String)
        (utl : List (String × String)),
        fetch url = .fail →
        processUrl cfg fetch writeOk url visited pending utl =
          .next
            ⟨insertSet url visited, pending,
              insertMap utl url (url_to_filename url cfg.root_dir cfg.output_dir)⟩
            [.fetchEv url,
              .persistEv
                ⟨insertSet url visited, pending,
                  insertMap utl url
                    (url_to_filename url cfg.root_dir cfg.output_dir)⟩]) ∧
    (∀ (cfg : Config) (writeOk : String → Bool) (v p : List String)
        (m : List (String × String)),
        (crawlLoop cfg (fun _ => FetchOutcome.fail) writeOk ⟨v, p, m⟩
          (p.length + 1)).2.2 = RunEnd.done) :=
  ⟨fun cfg _ writeOk url visited pending utl h =>
      processUrl_fail_eq cfg writeOk url visited pending utl h,
    fun cfg writeOk v p m => crawlLoop_allFail_done cfg writeOk p v m⟩

/-- Witness for `c6_fetch_failure_nonfatal` at concrete inputs. -/
theorem c6_fetch_failure_nonfatal_witness :
    processUrl ⟨"https://example.com/start", "/out", "example.com", none⟩
        (fun _ => FetchOutcome.fail) (fun _ => true)
        "https://example.com/start" [] [] [] =
      .next
        ⟨insertSet "https://example.com/start" [], [],
          insertMap [] "https://example.com/start"
            (url_to_filename "https://example.com/start" "example.com" "/out")⟩
        [.fetchEv "https://example.com/start",
          .persistEv
            ⟨insertSet "https://example.com/start" [], [],
              insertMap [] "https://example.com/start"
                (url_to_filename "https://example.com/start" "example.com" "/out")⟩] ∧
    (crawlLoop ⟨"https://example.com/start", "/out", "example.com", none⟩
        (fun _ => FetchOutcome.fail) (fun _ => true)
        ⟨[], ["https://example.com/a", "https://example.com/b"], []⟩
        (["https://example.com/a", "https://example.com/b"].length + 1)).2.2 =
      RunEnd.done :=
  ⟨c6_fetch_failure_nonfatal.1 _ _ _ _ _ _ _ rfl,
    c6_fetch_failure_nonfatal.2
      ⟨"https://example.com/start", "/out", "example.com", none⟩ (fun _ => true)
      [] ["https://example.com/a", "https://example.com/b"] []⟩

/-- C7: the frontier is persisted after every iteration that processes a
dequeued, not-already-visited URL — whether the page was saved, skipped by
scope, or its fetch failed, the iteration's final event is a persist of
exactly the frontier handed to the next iteration; and when the run ends by
cooperative interruption or an internal fault, the final event of the whole
run is a persist of the final frontier. -/
theorem c7_persist_every_iteration :
    (∀ (cfg : Config) (fetch : String → FetchOutcome) (writeOk : String → Bool)
        (url : String) (visited pending : List String)
        (utl : List (String × String)) (fr' : Frontier) (evs : List Ev),
        url ∉ visited →
        processUrl cfg fetch writeOk url visited pending utl = .next fr' evs →
        evs.getLast? = some (.persistEv fr')) ∧
    (∀ (cfg : Config) (fetch : String → FetchOutcome) (writeOk : String → Bool)
        (d : Disk) (fuel : Nat) (fr : Frontier) (evs : List Ev) (st : Status),
        scrape_crawl cfg fetch writeOk d fuel = .ok (fr, evs, st) →
        st = .interruptedRun ∨ (∃ e, st = .faultedRun e) →
        evs.getLast? = some (.persistEv fr)) := by
  constructor
  · intro cfg fetch writeOk url visited pending utl fr' evs _ hEq
    cases hfo : fetch url with
    | fail =>
      rw [processUrl_fail_eq cfg writeOk url visited pending utl hfo] at hEq
      cases hEq
      rfl
    | interrupt =>
      simp only [processUrl, hfo] at hEq
      exact StepRes.noConfusion hEq
    | ok hrefs =>
      simp only [processUrl, hfo] at hEq
      split at hEq
      · split at hEq
        · cases hEq
          rfl
        · exact StepRes.noConfusion hEq
      · cases hEq
        rfl
  · intro cfg fetch writeOk d fuel fr evs st hEq hst
    unfold scrape_crawl at hEq
    cases hload : load_bfs_state d with
    | none =>
      rw [hload] at hEq
      exact Except.noConfusion hEq
    | some loaded =>
      rw [hload] at hEq
      simp only [] at hEq
      rcases hloop : crawlLoop cfg fetch writeOk (initFrontier cfg loaded) fuel
        with ⟨fr2, evs2, e2⟩
      rw [hloop] at hEq
      cases e2 with
      | done =>
        simp only [] at hEq
        obtain ⟨rfl, rfl, rfl⟩ : fr2 = fr ∧ evs2 = evs ∧ Status.completed = st := by
          simpa using hEq
        rcases hst with h | ⟨e, h⟩ <;> exact Status.noConfusion h
      | fuelOut =>
        simp only [] at hEq
        obtain ⟨rfl, rfl, rfl⟩ : fr2 = fr ∧ evs2 = evs ∧ Status.hung = st := by
          simpa using hEq
        rcases hst with h | ⟨e, h⟩ <;> exact Status.noConfusion h
      | stopped e =>
        cases e with
        | interrupt =>
          simp only [] at hEq
          obtain ⟨rfl, rfl, rfl⟩ :
              fr2 = fr ∧ evs2 ++ [Ev.persistEv fr2] = evs ∧
                Status.interruptedRun = st := by simpa using hEq
          rw [List.getLast?_concat]
        | ioError pth =>
          simp only [] at hEq
          obtain ⟨rfl, rfl, rfl⟩ :
              fr2 = fr ∧ evs2 ++ [Ev.persistEv fr2] = evs ∧
                Status.faultedRun (Fault.ioError pth) = st := by simpa using hEq
          rw [List.getLast?_concat]
        | parseError =>
          simp only [] at hEq
          obtain ⟨rfl, rfl, rfl⟩ :
              fr2 = fr ∧ evs2 ++ [Ev.persistEv fr2] = evs ∧
                Status.faultedRun Fault.parseError = st := by simpa using hEq
          rw [List.getLast?_concat]

/-- Witness for `c7_persist_every_iteration` at concrete inputs. -/
theorem c7_persist_every_iteration_witness :
    ([Ev.fetchEv "https://example.com/start",
        Ev.persistEv
          ⟨insertSet "https://example.com/start" [], [],
            insertMap [] "https://example.com/start"
              (url_to_filename "https://example.com/start" "example.com"
                "/out")⟩] : List Ev).getLast? =
      some (Ev.persistEv
        ⟨insertSet "https://example.com/start" [], [],
          insertMap [] "https://example.com/start"
            (url_to_filename "https://example.com/start" "example.com" "/out")⟩) ∧
    ([Ev.fetchEv "https://example.com/start",
        Ev.persistEv
          ⟨["https://example.com/start"], [],
            [("https://example.com/start", "/out/start.md")]⟩] : List Ev).getLast? =
      some (Ev.persistEv
        ⟨["https://example.com/start"], [],
          [("https://example.com/start", "/out/start.md")]⟩) :=
  ⟨c7_persist_every_iteration.1
      ⟨"https://example.com/start", "/out", "example.com", none⟩
      (fun _ => FetchOutcome.fail) (fun _ => true)
      "https://example.com/start" [] [] [] _ _ (by decide) rfl,
    c7_persist_every_iteration.2
      ⟨"https://example.com/start", "/out", "example.com", none⟩
      (fun _ => FetchOutcome.ok []) (fun _ => false) Disk.empty 3
      ⟨["https://example.com/start"], [],
        [("https://example.com/start", "/out/start.md")]⟩
      [Ev.fetchEv "https://example.com/start",
        Ev.persistEv
          ⟨["https://example.com/start"], [],
            [("https://example.com/start", "/out/start.md")]⟩]
      (Status.faultedRun (Fault.ioError "/out/start.md")) rfl
      (Or.inr ⟨Fault.ioError "/out/start.md", rfl⟩)⟩

/-- Number of fetch attempts of `u` recorded in an event trace. -/
def countFetch (u : String) : List Ev → Nat
  | [] => 0
  | e :: t =>
    (match e with
      | .fetchEv v => if v = u then 1 else 0
      | _ => 0) + countFetch u t

lemma countFetch_append (u : String) (a b : List Ev) :
    countFetch u (a ++ b) = countFetch u a + countFetch u b := by
  induction a with
  | nil => simp [countFetch]
  | cons e t ih => simp [countFetch, ih, Nat.add_assoc]

lemma processUrl_countFetch (cfg : Config) (fetch : String → FetchOutcome)
    (writeOk : String → Bool) (url : String) (visited pending : List String)
    (utl : List (String × String)) (u : String) :
    countFetch u (stepEvs (processUrl cfg fetch writeOk url visited pending utl)) =
      if url = u then 1 else 0 := by
  cases hfo : fetch url with
  | fail =>
    simp only [processUrl, hfo, stepEvs]
    simp [countFetch]
  | interrupt =>
    simp only [processUrl, hfo, stepEvs]
    simp [countFetch]
  | ok hrefs =>
    simp only [processUrl, hfo]
    split
    · split
      · simp only [stepEvs]
        simp [countFetch]
      · simp only [stepEvs]
        simp [countFetch]
    · simp only [stepEvs]
      simp [countFetch]

lemma processUrl_visited_eq (cfg : Config) (fetch : String → FetchOutcome)
    (writeOk : String → Bool) (url : String) (visited pending : List String)
    (utl : List (String × String)) :
    (stepFrontier (processUrl cfg fetch writeOk url visited pending utl)).visited =
      insertSet url visited := by
  cases hfo : fetch url with
  | fail => simp only [processUrl, hfo, stepFrontier]
  | interrupt => simp only [processUrl, hfo, stepFrontier]
  | ok hrefs =>
    simp only [processUrl, hfo]
    split
    · split
      · simp only [stepFrontier]
      · simp only [stepFrontier]
    · simp only [stepFrontier]

lemma crawlLoop_countFetch (cfg : Config) (fetch : String → FetchOutcome)
    (writeOk : String → Bool) (u : String) :
    ∀ (fuel : Nat) (fr : Frontier),
      countFetch u (crawlLoop cfg fetch writeOk fr fuel).2.1 ≤
        if u ∈ fr.visited then 0 else 1 := by
  intro fuel
  induction fuel with
  | zero =>
    intro fr
    rw [crawlLoop_zero]
    simp [countFetch]
  | succ n ih =>
    intro fr
    rw [crawlLoop_succ]
    cases hp : fr.pending with
    | nil =>
      simp [countFetch]
    | cons url rest =>
      simp only []
      by_cases hv : url ∈ fr.visited
      · rw [if_pos hv]
        exact ih ⟨fr.visited, rest, fr.urlToLocal⟩
      · rw [if_neg hv]
        cases hres : processUrl cfg fetch writeOk url fr.visited rest fr.urlToLocal with
        | next fr' evs =>
          simp only []
          rw [countFetch_append]
          have h1 : countFetch u evs = if url = u then 1 else 0 := by
            have := processUrl_countFetch cfg fetch writeOk url fr.visited rest
              fr.urlToLocal u
            rw [hres] at this
            exact this
          have h2 : fr'.visited = insertSet url fr.visited := by
            have := processUrl_visited_eq cfg fetch writeOk url fr.visited rest
              fr.urlToLocal
            rw [hres] at this
            exact this
          have h3 := ih fr'
          by_cases hu : u ∈ fr.visited
          · have hne : ¬url = u := fun h => hv (h ▸ hu)
            have hufr' : u ∈ fr'.visited := by
              rw [h2]
              exact mem_insertSet.mpr (Or.inr hu)
            rw [if_pos hu]
            rw [if_pos hufr'] at h3
            rw [h1, if_neg hne]
            omega
          · rw [if_neg hu]
            by_cases hequ : url = u
            · subst hequ
              have hufr' : url ∈ fr'.visited := by
                rw [h2]
                exact self_mem_insertSet _ _
              rw [if_pos hufr'] at h3
              rw [h1, if_pos rfl]
              omega
            · rw [h1, if_neg hequ]
              have := h3
              by_cases hufr' : u ∈ fr'.visited
              · rw [if_pos hufr'] at this
                omega
              · rw [if_neg hufr'] at this
                omega
        | raised fr' evs e =>
          simp only []
          have h1 : countFetch u evs = if url = u then 1 else 0 := by
            have := processUrl_countFetch cfg fetch writeOk url fr.visited rest
              fr.urlToLocal u
            rw [hres] at this
            exact this
          rw [h1]
          by_cases hu : u ∈ fr.visited
          · have hne : ¬url = u := fun h => hv (h ▸ hu)
            rw [if_pos hu, if_neg hne]
          · rw [if_neg hu]
            split <;> omega

/-- C10: a dequeued URL is marked visited before its fetch is attempted.
First conjunct: whatever the fetch outcome (success, failure, or interrupt),
the frontier after the loop body has `visited = insertSet url visited`, so
the URL is in it.  Second conjunct: on a fetch failure the body persists a
frontier that already contains the URL as visited and continues.  Third
conjunct: in any run, a URL is fetched at most once, and a URL already in
`visited` at the start of a run (as after resuming from persisted state) is
never fetched at all — the bound is 0 in that case. -/
theorem c10_visited_before_fetch :
    (∀ (cfg : Config) (fetch : String → FetchOutcome) (writeOk : String → Bool)
        (url : String) (visited pending : List String)
        (utl : List (String × String)),
        (stepFrontier
          (processUrl cfg fetch writeOk url visited pending utl)).visited =
          insertSet url visited ∧
        url ∈ (stepFrontier
          (processUrl cfg fetch writeOk url visited pending utl)).visited) ∧
    (∀ (cfg : Config) (writeOk : String → Bool) (url : String)
        (visited pending : List String) (utl : List (String × String))
        (fetch : String → FetchOutcome),
        fetch url = .fail →
        ∃ fr', processUrl cfg fetch writeOk url visited pending utl =
            .next fr' [.fetchEv url, .persistEv fr'] ∧ url ∈ fr'.visited) ∧
    (∀ (cfg : Config) (fetch : String → FetchOutcome) (writeOk : String → Bool)
        (fr : Frontier) (fuel : Nat) (u : String),
        countFetch u (crawlLoop cfg fetch writeOk fr fuel).2.1 ≤
          if u ∈ fr.visited then 0 else 1) := by
  refine ⟨?_, ?_, ?_⟩
  · intro cfg fetch writeOk url visited pending utl
    refine ⟨processUrl_visited_eq cfg fetch writeOk url visited pending utl, ?_⟩
    rw [processUrl_visited_eq]
    exact self_mem_insertSet _ _
  · intro cfg writeOk url visited pending utl fetch h
    exact ⟨_, processUrl_fail_eq cfg writeOk url visited pending utl h,
      self_mem_insertSet _ _⟩
  · intro cfg fetch writeOk fr fuel u
    exact crawlLoop_countFetch cfg fetch writeOk u fuel fr

/-- Witness for `c10_visited_before_fetch` at concrete inputs. -/
theorem c10_visited_before_fetch_witness :
    ((stepFrontier
        (processUrl ⟨"https://example.com/start", "/out", "example.com", none⟩
          (fun _ => FetchOutcome.ok []) (fun _ => true)
          "https://example.com/start" [] [] [])).visited =
        insertSet "https://example.com/start" [] ∧
      "https://example.com/start" ∈
        (stepFrontier
          (processUrl ⟨"https://example.com/start", "/out", "example.com", none⟩
            (fun _ => FetchOutcome.ok []) (fun _ => true)
            "https://example.com/start" [] [] [])).visited) ∧
    (∃ fr', processUrl ⟨"https://example.com/start", "/out", "example.com", none⟩
          (fun _ => FetchOutcome.fail) (fun _ => true)
          "https://example.com/start" [] [] [] =
        .next fr' [.fetchEv "https://example.com/start", .persistEv fr'] ∧
        "https://example.com/start" ∈ fr'.visited) ∧
    countFetch "https://example.com/a"
        (crawlLoop ⟨"https://example.com/start", "/out", "example.com", none⟩
          (fun _ => FetchOutcome.ok []) (fun _ => true)
          ⟨["https://example.com/a"], ["https://example.com/a"], []⟩ 3).2.1 ≤
      if "https://example.com/a" ∈ ["https://example.com/a"] then 0 else 1 :=
  ⟨c10_visited_before_fetch.1
      ⟨"https://example.com/start", "/out", "example.com", none⟩
      (fun _ => FetchOutcome.ok []) (fun _ => true)
      "https://example.com/start" [] [] [],
    c10_visited_before_fetch.2.1
      ⟨"https://example.com/start", "/out", "example.com", none⟩
      (fun _ => true) "https://example.com/start" [] [] []
      (fun _ => FetchOutcome.fail) rfl,
    c10_visited_before_fetch.2.2
      ⟨"https://example.com/start", "/out", "example.com", none⟩
      (fun _ => FetchOutcome.ok []) (fun _ => true)
      ⟨["https://example.com/a"], ["https://example.com/a"], []⟩ 3
      "https://example.com/a"⟩

/-! ## Key invariants of the URL-to-local mapping -/

lemma isInScope_eq_saveEligible (cfg : Config) (u : String) :
    isInScope cfg u = saveEligible cfg u := rfl

lemma extractStep_utl_keys {cfg : Config} {dom : String} {visited : List String}
    {url : String} {acc : List String × List (String × String)} {href k w : String}
    (h : lookupA (extractStep cfg dom visited url acc href).2 k = some w) :
    lookupA acc.2 k = some w ∨ saveEligible cfg k = true := by
  simp only [extractStep] at h
  split at h
  · exact Or.inl h
  · split at h
    · simp only [] at h
      split at h
      · rcases lookupA_insertMap_cases h with h2 | h2
        · exact Or.inl h2
        · subst h2
          right
          rw [← isInScope_eq_saveEligible]
          assumption
      · exact Or.inl h
    · exact Or.inl h

lemma extract_foldl_utl_keys {cfg : Config} {dom : String}
    {visited : List String} {url : String} (hrefs : List String)
    (acc : List String × List (String × String)) {k w : String}
    (h : lookupA (hrefs.foldl (extractStep cfg dom visited url) acc).2 k = some w) :
    lookupA acc.2 k = some w ∨ saveEligible cfg k = true := by
  induction hrefs generalizing acc with
  | nil => exact Or.inl h
  | cons a t ih =>
    rw [List.foldl_cons] at h
    rcases ih _ h with h2 | h2
    · exact extractStep_utl_keys h2
    · exact Or.inr h2

lemma extractStep_utl_mono {cfg : Config} {dom : String} {visited : List String}
    {url : String} {acc : List String × List (String × String)} {href k : String}
    (h : (lookupA acc.2 k).isSome = true) :
    (lookupA (extractStep cfg dom visited url acc href).2 k).isSome = true := by
  simp only [extractStep]
  split
  · exact h
  · split
    · simp only []
      split
      · exact lookupA_insertMap_mono _ _ h
      · exact h
    · exact h

lemma extract_foldl_utl_mono {cfg : Config} {dom : String}
    {visited : List String} {url : String} (hrefs : List String)
    (acc : List String × List (String × String)) {k : String}
    (h : (lookupA acc.2 k).isSome = true) :
    (lookupA (hrefs.foldl (extractStep cfg dom visited url) acc).2 k).isSome = true := by
  induction hrefs generalizing acc with
  | nil => exact h
  | cons a t ih =>
    rw [List.foldl_cons]
    exact ih _ (extractStep_utl_mono h)

lemma processUrl_utl_keys {cfg : Config} {fetch : String → FetchOutcome}
    {writeOk : String → Bool} {url : String} {visited pending : List String}
    {utl : List (String × String)} {k w : String}
    (h : lookupA (stepFrontier
      (processUrl cfg fetch writeOk url visited pending utl)).urlToLocal k = some w) :
    (∃ w', lookupA utl k = some w') ∨ saveEligible cfg k = true ∨ k = url := by
  cases hfo : fetch url with
  | fail =>
    simp only [processUrl, hfo, stepFrontier] at h
    rcases lookupA_insertMap_cases h with h2 | h2
    · exact Or.inl ⟨w, h2⟩
    · exact Or.inr (Or.inr h2)
  | interrupt =>
    simp only [processUrl, hfo, stepFrontier] at h
    rcases lookupA_insertMap_cases h with h2 | h2
    · exact Or.inl ⟨w, h2⟩
    · exact Or.inr (Or.inr h2)
  | ok hrefs =>
    simp only [processUrl, hfo] at h
    have core : ∀ w2 : String,
        lookupA (hrefs.foldl
          (extractStep cfg (urlparse cfg.start_url).netloc (insertSet url visited) url)
          (pending,
            insertMap utl url (url_to_filename url cfg.root_dir cfg.output_dir))).2
          k = some w2 →
        (∃ w', lookupA utl k = some w') ∨ saveEligible cfg k = true ∨ k = url := by
      intro w2 h2
      rcases extract_foldl_utl_keys hrefs _ h2 with h3 | h3
      · rcases lookupA_insertMap_cases h3 with h4 | h4
        · exact Or.inl ⟨w2, h4⟩
        · exact Or.inr (Or.inr h4)
      · exact Or.inr (Or.inl h3)
    split at h
    · split at h
      · simp only [stepFrontier] at h
        rcases lookupA_insertMap_cases h with h2 | h2
        · exact core w h2
        · exact Or.inr (Or.inr h2)
      · simp only [stepFrontier] at h
        rcases lookupA_insertMap_cases h with h2 | h2
        · exact core w h2
        · exact Or.inr (Or.inr h2)
    · simp only [stepFrontier] at h
      exact core w h

lemma processUrl_utl_mono {cfg : Config} {fetch : String → FetchOutcome}
    {writeOk : String → Bool} {url : String} {visited pending : List String}
    {utl : List (String × String)} {k : String}
    (h : (lookupA utl k).isSome = true) :
    (lookupA (stepFrontier
      (processUrl cfg fetch writeOk url visited pending utl)).urlToLocal
      k).isSome = true := by
  have h0 : (lookupA (insertMap utl url
      (url_to_filename url cfg.root_dir cfg.output_dir)) k).isSome = true :=
    lookupA_insertMap_mono _ _ h
  cases hfo : fetch url with
  | fail => simp only [processUrl, hfo, stepFrontier]; exact h0
  | interrupt => simp only [processUrl, hfo, stepFrontier]; exact h0
  | ok hrefs =>
    simp only [processUrl, hfo]
    split
    · split
      · simp only [stepFrontier]
        exact lookupA_insertMap_mono _ _ (extract_foldl_utl_mono hrefs _ h0)
      · simp only [stepFrontier]
        exact lookupA_insertMap_mono _ _ (extract_foldl_utl_mono hrefs _ h0)
    · simp only [stepFrontier]
      exact extract_foldl_utl_mono hrefs _ h0

lemma processUrl_utl_hasUrl (cfg : Config) (fetch : String → FetchOutcome)
    (writeOk : String → Bool) (url : String) (visited pending : List String)
    (utl : List (String × String)) :
    (lookupA (stepFrontier
      (processUrl cfg fetch writeOk url visited pending utl)).urlToLocal
      url).isSome = true := by
  have h0 : (lookupA (insertMap utl url
      (url_to_filename url cfg.root_dir cfg.output_dir)) url).isSome = true := by
    obtain ⟨w, hw⟩ := lookupA_insertMap_self utl url
      (url_to_filename url cfg.root_dir cfg.output_dir)
    rw [hw]
    rfl
  cases hfo : fetch url with
  | fail => simp only [processUrl, hfo, stepFrontier]; exact h0
  | interrupt => simp only [processUrl, hfo, stepFrontier]; exact h0
  | ok hrefs =>
    simp only [processUrl, hfo]
    split
    · split
      · simp only [stepFrontier]
        exact lookupA_insertMap_mono _ _ (extract_foldl_utl_mono hrefs _ h0)
      · simp only [stepFrontier]
        exact lookupA_insertMap_mono _ _ (extract_foldl_utl_mono hrefs _ h0)
    · simp only [stepFrontier]
      exact extract_foldl_utl_mono hrefs _ h0

lemma crawlLoop_keys_inv (cfg : Config) (fetch : String → FetchOutcome)
    (writeOk : String → Bool) :
    ∀ (fuel : Nat) (fr : Frontier),
      (∀ k w, lookupA fr.urlToLocal k = some w →
        saveEligible cfg k = true ∨ k ∈ fr.visited) →
      (∀ v ∈ fr.visited, (lookupA fr.urlToLocal v).isSome = true) →
      (∀ k w,
        lookupA (crawlLoop cfg fetch writeOk fr fuel).1.urlToLocal k = some w →
        saveEligible cfg k = true ∨
          k ∈ (crawlLoop cfg fetch writeOk fr fuel).1.visited) ∧
      (∀ v ∈ (crawlLoop cfg fetch writeOk fr fuel).1.visited,
        (lookupA (crawlLoop cfg fetch writeOk fr fuel).1.urlToLocal v).isSome =
          true) := by
  intro fuel
  induction fuel with
  | zero =>
    intro fr hP hQ
    rw [crawlLoop_zero]
    exact ⟨hP, hQ⟩
  | succ n ih =>
    intro fr hP hQ
    rw [crawlLoop_succ]
    cases hp : fr.pending with
    | nil =>
      exact ⟨hP, hQ⟩
    | cons url rest =>
      simp only []
      by_cases hv : url ∈ fr.visited
      · rw [if_pos hv]
        exact ih ⟨fr.visited, rest, fr.urlToLocal⟩ hP hQ
      · rw [if_neg hv]
        cases hres : processUrl cfg fetch writeOk url fr.visited rest fr.urlToLocal with
        | next fr' evs =>
          simp only []
          have hvis : fr'.visited = insertSet url fr.visited := by
            have := processUrl_visited_eq cfg fetch writeOk url fr.visited rest
              fr.urlToLocal
            rw [hres] at this
            exact this
          have hP' : ∀ k w, lookupA fr'.urlToLocal k = some w →
              saveEligible cfg k = true ∨ k ∈ fr'.visited := by
            intro k w hk
            have hk2 : lookupA (stepFrontier (StepRes.next fr' evs)).urlToLocal
                k = some w := hk
            rw [← hres] at hk2
            rcases processUrl_utl_keys hk2 with ⟨w', hw'⟩ | h2 | h2
            · rcases hP k w' hw' with h3 | h3
              · exact Or.inl h3
              · right
                rw [hvis]
                exact mem_insertSet.mpr (Or.inr h3)
            · exact Or.inl h2
            · right
              rw [hvis, h2]
              exact self_mem_insertSet _ _
          have hQ' : ∀ v ∈ fr'.visited,
              (lookupA fr'.urlToLocal v).isSome = true := by
            intro v hvmem
            rw [hvis] at hvmem
            rcases mem_insertSet.mp hvmem with rfl | hold
            · have := processUrl_utl_hasUrl cfg fetch writeOk v fr.visited rest
                fr.urlToLocal
              rw [hres] at this
              exact this
            · have := @processUrl_utl_mono cfg fetch writeOk url
                fr.visited rest fr.urlToLocal v (hQ v hold)
              rw [hres] at this
              exact this
          exact ih fr' hP' hQ'
        | raised fr' evs e =>
          simp only []
          have hvis : fr'.visited = insertSet url fr.visited := by
            have := processUrl_visited_eq cfg fetch writeOk url fr.visited rest
              fr.urlToLocal
            rw [hres] at this
            exact this
          constructor
          · intro k w hk
            have hk2 : lookupA (stepFrontier (StepRes.raised fr' evs e)).urlToLocal
                k = some w := hk
            rw [← hres] at hk2
            rcases processUrl_utl_keys hk2 with ⟨w', hw'⟩ | h2 | h2
            · rcases hP k w' hw' with h3 | h3
              · exact Or.inl h3
              · right
                rw [hvis]
                exact mem_insertSet.mpr (Or.inr h3)
            · exact Or.inl h2
            · right
              rw [hvis, h2]
              exact self_mem_insertSet _ _
          · intro v hvmem
            rw [hvis] at hvmem
            rcases mem_insertSet.mp hvmem with rfl | hold
            · have := processUrl_utl_hasUrl cfg fetch writeOk v fr.visited rest
                fr.urlToLocal
              rw [hres] at this
              exact this
            · have := @processUrl_utl_mono cfg fetch writeOk url
                fr.visited rest fr.urlToLocal v (hQ v hold)
              rw [hres] at this
              exact this

/-- C2 (amended): `urlToLocal` does not only hold save-eligible URLs — it
holds save-eligible URLs AND every visited URL (each dequeued URL is assigned
a local path before its fetch, regardless of scope).  First conjunct: the
crawl loop preserves the invariant that every key of `urlToLocal` is
save-eligible or visited, and that every visited URL is a key — so a
visited-but-out-of-scope page does receive a local path and links to it ARE
rewritten by the link rewriter.  Second conjunct: in the fresh initial
frontier every key is save-eligible (only the seed is mapped). -/
theorem c2_urlToLocal_keys :
    (∀ (cfg : Config) (fetch : String → FetchOutcome) (writeOk : String → Bool)
        (fr : Frontier) (fuel : Nat),
        (∀ k w, lookupA fr.urlToLocal k = some w →
          saveEligible cfg k = true ∨ k ∈ fr.visited) →
        (∀ v ∈ fr.visited, (lookupA fr.urlToLocal v).isSome = true) →
        (∀ k w,
          lookupA (crawlLoop cfg fetch writeOk fr fuel).1.urlToLocal k = some w →
          saveEligible cfg k = true ∨
            k ∈ (crawlLoop cfg fetch writeOk fr fuel).1.visited) ∧
        (∀ v ∈ (crawlLoop cfg fetch writeOk fr fuel).1.visited,
          (lookupA (crawlLoop cfg fetch writeOk fr fuel).1.urlToLocal v).isSome =
            true)) ∧
    (∀ (cfg : Config) (k w : String),
        lookupA (initFrontier cfg ([], [], [])).urlToLocal k = some w →
        saveEligible cfg k = true) := by
  constructor
  · intro cfg fetch writeOk fr fuel hP hQ
    exact crawlLoop_keys_inv cfg fetch writeOk fuel fr hP hQ
  · intro cfg k w h
    simp only [initFrontier, if_pos (And.intro rfl rfl)] at h
    simp only [lookupA] at h
    split at h
    · rename_i heq
      subst heq
      simp [saveEligible]
    · exact absurd h (by simp [lookupA])

/-- Witness for `c2_urlToLocal_keys` at concrete inputs. -/
theorem c2_urlToLocal_keys_witness :
    ((∀ k w,
        lookupA (crawlLoop
          ⟨"https://example.com/start", "/out", "example.com", none⟩
          (fun _ => FetchOutcome.ok []) (fun _ => true)
          ⟨[], [], []⟩ 3).1.urlToLocal k = some w →
        saveEligible ⟨"https://example.com/start", "/out", "example.com", none⟩
            k = true ∨
          k ∈ (crawlLoop
            ⟨"https://example.com/start", "/out", "example.com", none⟩
            (fun _ => FetchOutcome.ok []) (fun _ => true)
            ⟨[], [], []⟩ 3).1.visited) ∧
      (∀ v ∈ (crawlLoop
          ⟨"https://example.com/start", "/out", "example.com", none⟩
          (fun _ => FetchOutcome.ok []) (fun _ => true)
          ⟨[], [], []⟩ 3).1.visited,
        (lookupA (crawlLoop
          ⟨"https://example.com/start", "/out", "example.com", none⟩
          (fun _ => FetchOutcome.ok []) (fun _ => true)
          ⟨[], [], []⟩ 3).1.urlToLocal v).isSome = true)) ∧
    saveEligible ⟨"https://example.com/start", "/out", "example.com", none⟩
      "https://example.com/start" = true :=
  ⟨c2_urlToLocal_keys.1
      ⟨"https://example.com/start", "/out", "example.com", none⟩
      (fun _ => FetchOutcome.ok []) (fun _ => true) ⟨[], [], []⟩ 3
      (fun k w h => absurd h (by simp [lookupA]))
      (fun v hv => absurd hv (by simp)),
    c2_urlToLocal_keys.2
      ⟨"https://example.com/start", "/out", "example.com", none⟩
      "https://example.com/start" "/out/start.md" (by decide)⟩

/-! ## Correctness of link relativisation -/

lemma strMk_data_eta (s : String) : String.mk s.data = s := rfl

lemma splitCharL_ne_nil (sep : Char) (l : List Char) : splitCharL sep l ≠ [] := by
  induction l with
  | nil => simp [splitCharL]
  | cons c t ih =>
    rw [splitCharL_cons]
    split
    · simp
    · cases heq : splitCharL sep t with
      | nil => exact absurd heq ih
      | cons h0 r0 => simp

lemma splitCharL_no_sep (sep : Char) (l : List Char) (h : sep ∉ l) :
    splitCharL sep l = [l] := by
  induction l with
  | nil => rfl
  | cons c t ih =>
    have hc : ¬c = sep := fun hc => h (hc ▸ List.mem_cons_self c t)
    rw [splitCharL_cons, if_neg hc, ih (fun hm => h (List.mem_cons_of_mem _ hm))]

lemma splitCharL_seg_no_sep (sep : Char) (l : List Char) :
    ∀ seg ∈ splitCharL sep l, sep ∉ seg := by
  induction l with
  | nil =>
    intro seg hseg
    simp only [splitCharL] at hseg
    rw [List.mem_singleton] at hseg
    subst hseg
    simp
  | cons c t ih =>
    intro seg hseg
    rw [splitCharL_cons] at hseg
    by_cases hc : c = sep
    · rw [if_pos hc] at hseg
      rcases List.mem_cons.mp hseg with rfl | hm
      · simp
      · exact ih seg hm
    · rw [if_neg hc] at hseg
      cases heq : splitCharL sep t with
      | nil => exact absurd heq (splitCharL_ne_nil sep t)
      | cons h0 r0 =>
        rw [heq] at hseg
        rcases List.mem_cons.mp hseg with rfl | hm
        · intro hmem
          rcases List.mem_cons.mp hmem with heq2 | hmem2
          · exact hc heq2.symm
          · exact ih h0 (heq ▸ List.mem_cons_self h0 r0) hmem2
        · exact ih seg (heq ▸ List.mem_cons_of_mem h0 hm)

lemma segsOf_elems (p : String) : ∀ s ∈ segsOf p, s ≠ "" ∧ '/' ∉ s.data := by
  intro s hs
  unfold segsOf at hs
  rw [List.mem_filter] at hs
  obtain ⟨hmem, hne⟩ := hs
  refine ⟨by simpa using hne, ?_⟩
  unfold splitCharS at hmem
  obtain ⟨seg, hseg, rfl⟩ := List.mem_map.mp hmem
  exact splitCharL_seg_no_sep '/' p.data seg hseg

lemma dropCommon_cons_self (x : String) (as bs : List String) :
    dropCommon (x :: as) (x :: bs) = dropCommon as bs := by
  simp [dropCommon]

lemma dropCommon_cons_ne {x y : String} (hxy : x ≠ y) (as bs : List String) :
    dropCommon (x :: as) (y :: bs) = (x :: as, y :: bs) := by
  simp [dropCommon, hxy]

lemma dropCommon_decomp : ∀ (a b : List String),
    ∃ c, a = c ++ (dropCommon a b).1 ∧ b = c ++ (dropCommon a b).2 := by
  intro a
  induction a with
  | nil => intro b; exact ⟨[], rfl, rfl⟩
  | cons x as ih =>
    intro b
    cases b with
    | nil => exact ⟨[], rfl, rfl⟩
    | cons y bs =>
      by_cases hxy : x = y
      · subst hxy
        obtain ⟨c, hc1, hc2⟩ := ih bs
        refine ⟨x :: c, ?_, ?_⟩
        · rw [dropCommon_cons_self, List.cons_append, ← hc1]
        · rw [dropCommon_cons_self, List.cons_append, ← hc2]
      · refine ⟨[], ?_, ?_⟩
        · rw [dropCommon_cons_ne hxy]
          rfl
        · rw [dropCommon_cons_ne hxy]
          rfl

lemma joinSegs_cons2 (s b : String) (t : List String) :
    joinSegs (s :: b :: t) = s ++ "/" ++ joinSegs (b :: t) := rfl

lemma segsOf_joinSegs : ∀ (parts : List String),
    (∀ s ∈ parts, s ≠ "" ∧ '/' ∉ s.data) → segsOf (joinSegs parts) = parts := by
  intro parts
  induction parts with
  | nil => intro _; rfl
  | cons s rest ih =>
    intro h
    cases rest with
    | nil =>
      show segsOf s = [s]
      unfold segsOf splitCharS
      rw [splitCharL_no_sep '/' s.data (h s (by simp)).2]
      simp only [List.map_cons, List.map_nil]
      rw [List.filter_cons]
      have hs : s ≠ "" := (h s (by simp)).1
      have : (String.mk s.data ≠ "") := by
        rw [strMk_data_eta]
        exact hs
      simp only [strMk_data_eta]
      rw [if_pos (by simpa using hs)]
      rfl
    | cons b t =>
      rw [joinSegs_cons2]
      unfold segsOf splitCharS
      have hdata : (s ++ "/" ++ joinSegs (b :: t)).data =
          s.data ++ '/' :: (joinSegs (b :: t)).data := by
        simp [String.data_append]
      rw [hdata]
      rw [splitCharL_append_sep '/' s.data _ (h s (by simp)).2]
      simp only [List.map_cons, strMk_data_eta]
      rw [List.filter_cons]
      rw [if_pos (by simpa using (h s (by simp)).1)]
      have := ih (fun x hx => h x (List.mem_cons_of_mem _ hx))
      unfold segsOf splitCharS at this
      rw [this]

lemma resolveSegs_cons (base : List String) (s : String) (t : List String) :
    resolveSegs base (s :: t) =
      if s = ".." then resolveSegs base.dropLast t
      else if s = "." then resolveSegs base t
      else resolveSegs (base ++ [s]) t := rfl

lemma resolveSegs_no_dots : ∀ (p : List String) (c : List String),
    (∀ x ∈ p, ¬x = ".." ∧ ¬x = ".") → resolveSegs c p = c ++ p := by
  intro p
  induction p with
  | nil => intro c _; rw [List.append_nil]; rfl
  | cons s t ih =>
    intro c h
    rw [resolveSegs_cons, if_neg (h s (by simp)).1, if_neg (h s (by simp)).2]
    rw [ih (c ++ [s]) (fun x hx => h x (List.mem_cons_of_mem _ hx))]
    simp

lemma resolveSegs_ups (p : List String)
    (hp : ∀ x ∈ p, ¬x = ".." ∧ ¬x = ".") :
    ∀ (sT : List String) (c : List String),
      resolveSegs (c ++ sT) (List.replicate sT.length ".." ++ p) = c ++ p := by
  intro sT
  induction sT using List.reverseRecOn with
  | nil =>
    intro c
    simpa using resolveSegs_no_dots p c hp
  | append_singleton ys y ih =>
    intro c
    rw [List.length_append, List.length_singleton, List.replicate_succ,
      List.cons_append, resolveSegs_cons, if_pos rfl, ← List.append_assoc,
      List.dropLast_concat]
    exact ih c

lemma relpath_resolves {tp start rp : String} (htp : ¬tp = "")
    (hdots : ∀ s ∈ segsOf tp, ¬s = ".." ∧ ¬s = ".")
    (h : relpath tp start = some rp) :
    resolveSegs (segsOf start) (segsOf rp) = segsOf tp := by
  obtain ⟨c, hc1, hc2⟩ := dropCommon_decomp (segsOf tp) (segsOf start)
  unfold relpath at h
  rw [if_neg htp] at h
  rcases hdc : dropCommon (segsOf tp) (segsOf start) with ⟨pT, sT⟩
  rw [hdc] at h hc1 hc2
  simp only [] at h hc1 hc2
  have h2 := Option.some.inj h
  by_cases hparts : sT.map (fun _ => "..") ++ pT = []
  · rw [if_pos hparts] at h2
    have hsT : sT = [] := List.map_eq_nil_iff.mp (List.append_eq_nil.mp hparts).1
    have hpT : pT = [] := (List.append_eq_nil.mp hparts).2
    subst h2
    rw [hc1, hc2, hsT, hpT, List.append_nil]
    show resolveSegs c ["."] = c
    rw [resolveSegs_cons, if_neg (by decide), if_pos rfl]
    rfl
  · rw [if_neg hparts] at h2
    subst h2
    rw [segsOf_joinSegs]
    · rw [hc2, List.map_const']
      rw [resolveSegs_ups pT ?hpT sT c]
      · exact hc1.symm
      case hpT =>
        intro x hx
        refine hdots x ?_
        rw [hc1]
        exact List.mem_append_right c hx
    · intro s hs
      rcases List.mem_append.mp hs with hs | hs
      · obtain ⟨x, _, rfl⟩ := List.mem_map.mp hs
        exact ⟨by decide, by decide⟩
      · refine segsOf_elems tp s ?_
        rw [hc1]
        exact List.mem_append_right c hs

/-- C3 (amended): for a saved page with local path `cp`, the rewriter maps
each anchor in place; an href whose resolved absolute URL has a `urlToLocal`
entry `tp` is rewritten to a relative path that resolves, from the saved
file's directory, to that mapped local path `tp` — which is a file the crawl
writes only when the target page is itself saved (a visited out-of-scope
target has a mapped path but no file); an href whose resolved absolute URL
has no entry is left byte-identical to its ORIGINAL text (not to its
resolved absolute form). -/
theorem c3_rewrite_safety :
    (∀ (hrefs : List String) (current : String) (utl : List (String × String))
        (cp : String),
        lookupA utl current = some cp →
        rewrite_local_links hrefs current utl =
          hrefs.map (rewriteHref current utl cp)) ∧
    (∀ (current : String) (utl : List (String × String)) (cp href : String),
        lookupA utl (urljoin current href) = none →
        rewriteHref current utl cp href = href) ∧
    (∀ (current : String) (utl : List (String × String)) (cp href tp : String),
        ¬(href = "" ∨ strStarts href "#" = true) →
        lookupA utl (urljoin current href) = some tp →
        ¬tp = "" →
        (∀ s ∈ segsOf tp, ¬s = ".." ∧ ¬s = ".") →
        resolveSegs (segsOf (dirname cp))
            (segsOf (rewriteHref current utl cp href)) =
          segsOf tp) := by
  refine ⟨?_, ?_, ?_⟩
  · intro hrefs current utl cp h
    simp only [rewrite_local_links, h]
  · intro current utl cp href hnone
    by_cases hfrag : href = "" ∨ strStarts href "#" = true
    · simp only [rewriteHref, if_pos hfrag]
    · simp only [rewriteHref, if_neg hfrag, hnone]
  · intro current utl cp href tp hfrag hsome htp hdots
    simp only [rewriteHref, if_neg hfrag, hsome]
    cases hrel : relpath tp (dirname cp) with
    | none =>
      unfold relpath at hrel
      rw [if_neg htp] at hrel
      exact Option.noConfusion hrel
    | some rp =>
      simp only []
      exact relpath_resolves htp hdots hrel

/-- Witness for `c3_rewrite_safety` at concrete inputs. -/
theorem c3_rewrite_safety_witness :
    rewrite_local_links ["/other/x"] "https://example.com/a"
        [("https://example.com/a", "/out/a.md")] =
      (["/other/x"].map
        (rewriteHref "https://example.com/a"
          [("https://example.com/a", "/out/a.md")] "/out/a.md")) ∧
    rewriteHref "https://example.com/a" [("https://example.com/a", "/out/a.md")]
        "/out/a.md" "/other/x" = "/other/x" ∧
    resolveSegs (segsOf (dirname "/out/scope/b.md"))
        (segsOf (rewriteHref "https://example.com/scope/b"
          [("https://example.com/scope/b", "/out/scope/b.md"),
            ("https://example.com/other/a", "/out/other/a.md")]
          "/out/scope/b.md" "/other/a")) =
      segsOf "/out/other/a.md" :=
  ⟨c3_rewrite_safety.1 ["/other/x"] "https://example.com/a"
      [("https://example.com/a", "/out/a.md")] "/out/a.md" (by decide),
    c3_rewrite_safety.2.1 "https://example.com/a"
      [("https://example.com/a", "/out/a.md")] "/out/a.md" "/other/x"
      (by decide),
    c3_rewrite_safety.2.2 "https://example.com/scope/b"
      [("https://example.com/scope/b", "/out/scope/b.md"),
        ("https://example.com/other/a", "/out/other/a.md")]
      "/out/scope/b.md" "/other/a" "/out/other/a.md" (by decide) (by decide)
      (by decide) (by decide)⟩

/-- C9 (amended): an `IOError` while writing a page (or creating its parent
directories) is not recovered per-page — it aborts the loop body with no
in-body persist and stops the crawl loop — and the engine's outer
`except Exception` handler then persists the frontier state as the final
event; but the exception is swallowed there: `scrape_crawl` returns normally
(an `.ok` value carrying a fault status), so the error does not propagate out
of the crawl engine. -/
theorem c9_ioerror_handling :
    (∀ (cfg : Config) (fetch : String → FetchOutcome) (writeOk : String → Bool)
        (url : String) (visited pending : List String)
        (utl : List (String × String)) (hrefs : List String),
        fetch url = .ok hrefs →
        shouldSaveCode cfg url = true →
        (∀ q, writeOk q = false) →
        ∃ fr', processUrl cfg fetch writeOk url visited pending utl =
            .raised fr' [.fetchEv url]
              (.ioError ((lookupA fr'.urlToLocal url).getD ""))) ∧
    (∀ (cfg : Config) (fetch : String → FetchOutcome) (writeOk : String → Bool)
        (d : Disk) (fuel : Nat)
        (loaded : List String × List String × List (String × String))
        (fr : Frontier) (evs : List Ev) (p : String),
        load_bfs_state d = some loaded →
        crawlLoop cfg fetch writeOk (initFrontier cfg loaded) fuel =
          (fr, evs, .stopped (.ioError p)) →
        scrape_crawl cfg fetch writeOk d fuel =
          .ok (fr, evs ++ [.persistEv fr], .faultedRun (.ioError p))) := by
  constructor
  · intro cfg fetch writeOk url visited pending utl hrefs hf hss hw
    refine ⟨⟨insertSet url visited,
      (hrefs.foldl
        (extractStep cfg (urlparse cfg.start_url).netloc (insertSet url visited) url)
        (pending,
          insertMap utl url (url_to_filename url cfg.root_dir cfg.output_dir))).1,
      insertMap
        (hrefs.foldl
          (extractStep cfg (urlparse cfg.start_url).netloc (insertSet url visited) url)
          (pending,
            insertMap utl url (url_to_filename url cfg.root_dir cfg.output_dir))).2
        url (url_to_filename url cfg.root_dir cfg.output_dir)⟩, ?_⟩
    unfold processUrl
    rw [hf]
    simp only [hss, if_pos, hw _, Bool.false_eq_true, if_false]
  · intro cfg fetch writeOk d fuel loaded fr evs p hload hloop
    unfold scrape_crawl
    rw [hload]
    simp only []
    rw [hloop]

/-- Witness for `c9_ioerror_handling` at concrete inputs. -/
theorem c9_ioerror_handling_witness :
    (∃ fr', processUrl ⟨"https://example.com/start", "/out", "example.com", none⟩
        (fun _ => FetchOutcome.ok []) (fun _ => false)
        "https://example.com/start" [] [] [] =
      .raised fr' [.fetchEv "https://example.com/start"]
        (.ioError ((lookupA fr'.urlToLocal "https://example.com/start").getD ""))) ∧
    scrape_crawl ⟨"https://example.com/start", "/out", "example.com", none⟩
        (fun _ => FetchOutcome.ok []) (fun _ => false) Disk.empty 3 =
      .ok (⟨["https://example.com/start"], [],
          [("https://example.com/start", "/out/start.md")]⟩,
        [Ev.fetchEv "https://example.com/start"] ++
          [Ev.persistEv ⟨["https://example.com/start"], [],
            [("https://example.com/start", "/out/start.md")]⟩],
        .faultedRun (.ioError "/out/start.md")) :=
  ⟨c9_ioerror_handling.1
      ⟨"https://example.com/start", "/out", "example.com", none⟩
      (fun _ => FetchOutcome.ok []) (fun _ => false)
      "https://example.com/start" [] [] [] [] rfl (by decide) (fun _ => rfl),
    c9_ioerror_handling.2
      ⟨"https://example.com/start", "/out", "example.com", none⟩
      (fun _ => FetchOutcome.ok []) (fun _ => false) Disk.empty 3
      ([], [], []) ⟨["https://example.com/start"], [],
        [("https://example.com/start", "/out/start.md")]⟩
      [Ev.fetchEv "https://example.com/start"] "/out/start.md" rfl (by decide)⟩
